import Mathlib

/-!
# Verification of the Yomitan `DOMTextScanner` (src/unnamed/part_001)

Shallow embedding of `ext/js/dom/dom-text-scanner.js`.

Modelling conventions:
* A document is a finite tree of element nodes (with a tag name and a computed
  style snapshot) and text leaves.  Other DOM node kinds (comments, etc.) are
  not modelled; the scanner skips them without effect.
* A node position is a `Path`: the list of child indices from the node up to
  the root, innermost index first (`[]` is the root).  This is the
  parent-pointer view used by the DOM navigation primitives.
* Text is a list of Unicode code points and offsets count code points.  This
  models `StringUtil.readCodePointsForward`/`Backward` (an external primitive
  per the spec) for documents of basic-plane characters, where a code point
  has UTF-16 length 1.
* Computed style properties are the strings the host returns; `parseFloat` of
  `opacity`/`fontSize` is abstracted as `Option ℚ` (`none` = NaN), since style
  computation is host-provided.  A NaN compares false against `≤ 0`, exactly
  as in JavaScript.
* JavaScript numbers that stay non-negative (`offset`, `remainder`) are
  modelled as `Nat`; subtractions match the source exactly on all reachable
  states (guards in the source return before any value would go negative).
-/

/-- A computed style snapshot, as read from the host's `getComputedStyle`. -/
structure ComputedStyle where
  display : String
  position : String
  visibility : String
  opacity : Option ℚ
  fontSize : Option ℚ
  color : String
  webkitTextFillColor : String
  whiteSpace : String
  userSelect : String
  webkitUserSelect : String
  MozUserSelect : String
  msUserSelect : String
  deriving DecidableEq, Repr

/-- `String.prototype.toUpperCase` (ASCII range, which covers tag names). -/
def toUpperCase (s : String) : String := String.mk (s.toList.map Char.toUpper)

/-- `parseFloat(x) <= 0` where `none` models NaN (all comparisons false). -/
def parseFloatLeZero : Option ℚ → Bool
  | none => false
  | some q => q ≤ 0

/-- `\s` of JavaScript regular expressions (whitespace character class). -/
def isRegexSpace (c : Char) : Bool :=
  c = ' ' ∨ c = '\t' ∨ c.toNat = 0x0a ∨ c.toNat = 0x0d ∨ c.toNat = 0x0b ∨
  c.toNat = 0x0c ∨ c.toNat = 0xa0 ∨ c.toNat = 0x1680 ∨
  (0x2000 ≤ c.toNat ∧ c.toNat ≤ 0x200a) ∨ c.toNat = 0x2028 ∨
  c.toNat = 0x2029 ∨ c.toNat = 0x202f ∨ c.toNat = 0x205f ∨
  c.toNat = 0x3000 ∨ c.toNat = 0xfeff

/-- Matcher for the tail `0*\)` of the pattern, anchored at the end. -/
def matchZerosParen : List Char → Bool
  | [')'] => true
  | '0' :: rest => matchZerosParen rest
  | _ => false

/-- Matcher for `.?0*\)` (the `.` of the regex matches any non-line-terminator). -/
def matchAfterZero (cs : List Char) : Bool :=
  matchZerosParen cs ||
    (match cs with
     | c :: rest => (c.toNat ≠ 0x0a ∧ c.toNat ≠ 0x0d ∧ c.toNat ≠ 0x2028 ∧ c.toNat ≠ 0x2029) && matchZerosParen rest
     | [] => false)

/-- Matcher for `\s*0.?0*\)` anchored at the end. -/
def matchWsZero : List Char → Bool
  | [] => false
  | c :: rest =>
    if c = '0' then matchAfterZero rest
    else if isRegexSpace c then matchWsZero rest
    else false

/-- `/,\s*0.?0*\)$/.test cs`: some suffix starting at a comma matches to the end. -/
def rgbaAlphaZeroTest : List Char → Bool
  | [] => false
  | c :: rest => (c = ',' && matchWsZero rest) || rgbaAlphaZeroTest rest

/-- `DOMTextScanner.isCSSColorTransparent`. -/
def isCSSColorTransparent (cssColor : String) : Bool :=
  "rgba(".toList.isPrefixOf cssColor.toList && rgbaAlphaZeroTest cssColor.toList

/-- `DOMTextScanner.isStyleSelectable`. -/
def isStyleSelectable (style : ComputedStyle) : Bool :=
  !(style.userSelect == "none" ||
    style.webkitUserSelect == "none" ||
    style.MozUserSelect == "none" ||
    style.msUserSelect == "none")

/-- `DOMTextScanner.isStyleVisible` (does not check `display === 'none'`). -/
def isStyleVisible (style : ComputedStyle) : Bool :=
  !(style.visibility == "hidden" ||
    parseFloatLeZero style.opacity ||
    parseFloatLeZero style.fontSize ||
    (!isStyleSelectable style &&
      (isCSSColorTransparent style.color ||
       isCSSColorTransparent style.webkitTextFillColor)))

/-- `DOMTextScanner.doesCSSDisplayChangeLayout`: truncate to the part before
the first space, record whether a hyphen follows in that part, truncate to the
part before the first hyphen, then dispatch. -/
def doesCSSDisplayChangeLayout (cssDisplay : String) : Bool :=
  let untilSpace := cssDisplay.toList.takeWhile (fun c => c ≠ ' ')
  let hadHyphen := untilSpace.contains '-'
  let head := String.mk (untilSpace.takeWhile (fun c => c ≠ '-'))
  if head == "block" || head == "flex" || head == "grid" || head == "list" || head == "table" then
    true
  else if head == "ruby" then
    hadHyphen
  else
    false

/-- `DOMTextScanner.getCharacterAttributes`, switching on the character's code:
`0` = ignorable, `1` = collapsible whitespace, `2` = significant, `3` = preserved newline. -/
def getCharacterAttributes (character : Char) (preserveNewlines preserveWhitespace : Bool) : Nat :=
  let code := character.toNat
  if code = 0x09 ∨ code = 0x0c ∨ code = 0x0d ∨ code = 0x20 then
    if preserveWhitespace then 2 else 1
  else if code = 0x0a then
    if preserveNewlines then 3 else 1
  else if code = 0x200b ∨ code = 0x200c then 0
  else 2

/-! ## The document tree and navigation primitives -/

/-- A DOM node: an element (tag name, computed style, children) or a text leaf. -/
inductive DomNode where
  | text (value : List Char)
  | element (tagName : String) (style : ComputedStyle) (children : List DomNode)

/-- A node position: child indices from the node up to the root, innermost first. -/
abbrev NodePath := List Nat

/-- Resolve a position to its node (parent resolved first). -/
def nodeAt (root : DomNode) : NodePath → Option DomNode
  | [] => some root
  | i :: q =>
    match nodeAt root q with
    | some (DomNode.element _ _ children) => children[i]?
    | _ => none

/-- Number of children of the node at a position (`0` for text or invalid positions). -/
def childCount (root : DomNode) (p : NodePath) : Nat :=
  match nodeAt root p with
  | some (DomNode.element _ _ children) => children.length
  | _ => 0

/-- `node.nodeName` (`#text` for text nodes). -/
def nodeNameAt (root : DomNode) (p : NodePath) : Option String :=
  match nodeAt root p with
  | some (DomNode.element tagName _ _) => some tagName
  | some (DomNode.text _) => some "#text"
  | none => none

/-- `node.firstChild`. -/
def firstChildPath (root : DomNode) (p : NodePath) : Option NodePath :=
  if 0 < childCount root p then some (0 :: p) else none

/-- `node.lastChild`. -/
def lastChildPath (root : DomNode) (p : NodePath) : Option NodePath :=
  let n := childCount root p
  if 0 < n then some ((n - 1) :: p) else none

/-- `node.nextSibling` (exists iff the parent has a child at the next index). -/
def nextSiblingPath (root : DomNode) : NodePath → Option NodePath
  | [] => none
  | i :: q => if i + 1 < childCount root q then some ((i + 1) :: q) else none

/-- `node.previousSibling`; the `i < childCount` conjunct models that the node
itself exists in the document (always true for valid positions). -/
def prevSiblingPath (root : DomNode) : NodePath → Option NodePath
  | [] => none
  | i :: q => if 0 < i ∧ i < childCount root q then some ((i - 1) :: q) else none

/-- The sibling/parent climbing loop of `DOMTextScanner.getNextNode`: push the
current node onto `exitedNodes`, take its next/previous sibling if present,
otherwise move to the parent and repeat; stop with `none` at the root. -/
def climb (root : DomNode) (forward : Bool) : NodePath → Option NodePath × List NodePath
  | [] => (none, [[]])
  | i :: q =>
    match (if forward then nextSiblingPath root (i :: q) else prevSiblingPath root (i :: q)) with
    | some s => (some s, [i :: q])
    | none =>
      let r := climb root forward q
      (r.1, (i :: q) :: r.2)

/-- `DOMTextScanner.getNextNode`, returning the next position and the exited nodes. -/
def getNextNode (root : DomNode) (p : NodePath) (forward visitChildren : Bool) :
    Option NodePath × List NodePath :=
  let next := if visitChildren then (if forward then firstChildPath root p else lastChildPath root p) else none
  match next with
  | some n => (some n, [])
  | none => climb root forward p

/-- `DOMTextScanner.getParentElement`: the node itself if it is an element,
otherwise the nearest element ancestor. -/
def getParentElement (root : DomNode) : NodePath → Option NodePath
  | [] =>
    match root with
    | DomNode.element _ _ _ => some []
    | _ => none
  | i :: q =>
    match nodeAt root (i :: q) with
    | some (DomNode.element _ _ _) => some (i :: q)
    | _ => getParentElement root q

/-- `DOMTextScanner.getParentRubyElement`: the enclosing `<ruby>` when the
nearest element ancestor is an `<rt>` whose parent is a `<ruby>`. -/
def getParentRubyElement (root : DomNode) (p : NodePath) : Option NodePath :=
  match getParentElement root p with
  | some p2 =>
    if toUpperCase ((nodeNameAt root p2).getD "") == "RT" then
      match p2 with
      | _ :: p3 =>
        if toUpperCase ((nodeNameAt root p3).getD "") == "RUBY" then some p3 else none
      | [] => none
    else none
  | none => none

/-- The result of `DOMTextScanner.getElementSeekInfo`. -/
structure ElementSeekInfo where
  enterable : Bool
  newlines : Nat
  deriving DecidableEq, Repr

/-- `DOMTextScanner.getElementSeekInfo`. -/
def getElementSeekInfo (tagName : String) (style : ComputedStyle) : ElementSeekInfo :=
  let upper := toUpperCase tagName
  if upper == "HEAD" || upper == "RT" || upper == "SCRIPT" || upper == "STYLE" then
    { enterable := false, newlines := 0 }
  else if upper == "BR" then
    { enterable := false, newlines := 1 }
  else
    let enterable := !(upper == "TEXTAREA" || upper == "INPUT" || upper == "BUTTON")
    let visible := style.display != "none" && isStyleVisible style
    if !visible then
      { enterable := false, newlines := 0 }
    else
      let newlines :=
        if style.position == "absolute" || style.position == "fixed" || style.position == "sticky" then 2
        else if doesCSSDisplayChangeLayout style.display then 1
        else 0
      { enterable := enterable, newlines := newlines }

/-! ## Node counting (used as the traversal loop bound) -/

mutual

/-- All valid positions in the subtree rooted at `n`, which sits at position `p`. -/
def pathsOfNode : DomNode → NodePath → List NodePath
  | DomNode.text _, p => [p]
  | DomNode.element _ _ children, p => p :: pathsOfChildren children 0 p

/-- All valid positions under the children `cs`, whose indices start at `i`
and whose parent sits at position `p`. -/
def pathsOfChildren : List DomNode → Nat → NodePath → List NodePath
  | [], _, _ => []
  | c :: cs, i, p => pathsOfNode c (i :: p) ++ pathsOfChildren cs (i + 1) p

end

/-- All valid positions of the document. -/
def pathsOf (root : DomNode) : List NodePath := pathsOfNode root []

/-- Total number of nodes of the document. -/
def nodeCount (root : DomNode) : Nat := (pathsOf root).length

example : nodeCount (DomNode.text ['a']) = 1 := by decide

/-! ## The scanner state -/

/-- The state of a `DOMTextScanner` instance (the private fields of the class).
`node` is a position in the document the scanner was created over. -/
structure DOMTextScanner where
  node : NodePath
  offset : Nat
  content : List Char
  remainder : Nat
  resetOffset : Bool
  newlines : Nat
  lineHasWhitespace : Bool
  lineHasContent : Bool
  forcePreserveWhitespace : Bool
  generateLayoutContent : Bool
  deriving DecidableEq, Repr

/-- The `DOMTextScanner` constructor. -/
def mkDOMTextScanner (root : DomNode) (p : NodePath) (offset : Nat)
    (forcePreserveWhitespace generateLayoutContent : Bool) : DOMTextScanner :=
  match getParentRubyElement root p with
  | some ruby =>
    { node := ruby, offset := offset, content := [], remainder := 0, resetOffset := true,
      newlines := 0, lineHasWhitespace := false, lineHasContent := false,
      forcePreserveWhitespace := forcePreserveWhitespace,
      generateLayoutContent := generateLayoutContent }
  | none =>
    { node := p, offset := offset, content := [], remainder := 0, resetOffset := false,
      newlines := 0, lineHasWhitespace := false, lineHasContent := false,
      forcePreserveWhitespace := forcePreserveWhitespace,
      generateLayoutContent := generateLayoutContent }

/-- `DOMTextScanner._getWhitespaceSettings` for the text node at `p`:
`(preserveNewlines, preserveWhitespace)`. -/
def getWhitespaceSettings (root : DomNode) (p : NodePath)
    (forcePreserveWhitespace : Bool) : Bool × Bool :=
  if forcePreserveWhitespace then (true, true)
  else
    match getParentElement root p with
    | some pe =>
      match nodeAt root pe with
      | some (DomNode.element _ style _) =>
        if style.whiteSpace == "pre" || style.whiteSpace == "pre-wrap" ||
            style.whiteSpace == "break-spaces" then (true, true)
        else if style.whiteSpace == "pre-line" then (true, false)
        else (false, false)
      | _ => (false, false)
    | none => (false, false)

/-- `DOMTextScanner._checkCharacterForward`: one step of the whitespace/newline
state machine.  Returns the updated state and `true` when scanning should stop. -/
def checkCharacterForward (s0 : DOMTextScanner) (char : Char) (charAttributes : Nat) :
    DOMTextScanner × Bool :=
  let emit : DOMTextScanner → DOMTextScanner × Bool := fun s =>
    let s' := { s with content := s.content ++ [char], remainder := s.remainder - 1 }
    (s', s'.remainder = 0)
  if charAttributes = 1 then
    ({ s0 with lineHasWhitespace := true }, false)
  else if charAttributes = 2 ∨ charAttributes = 3 then
    let sA :=
      if 0 < s0.newlines then
        if 0 < s0.content.length then
          let useNewlineCount := min s0.remainder s0.newlines
          { s0 with content := s0.content ++ List.replicate useNewlineCount '\n',
                    remainder := s0.remainder - useNewlineCount,
                    newlines := s0.newlines - useNewlineCount,
                    lineHasContent := false, lineHasWhitespace := false }
        else
          { s0 with newlines := 0, lineHasContent := false, lineHasWhitespace := false }
      else s0
    if 0 < s0.newlines ∧ sA.remainder = 0 then
      ({ sA with offset := sA.offset - 1 }, true)
    else
      let sB := { sA with lineHasContent := charAttributes = 2 }
      if sB.lineHasWhitespace then
        if sB.lineHasContent then
          let sC := { sB with content := sB.content ++ [' '], lineHasWhitespace := false,
                              remainder := sB.remainder - 1 }
          if sC.remainder = 0 then ({ sC with offset := sC.offset - 1 }, true)
          else emit sC
        else emit { sB with lineHasWhitespace := false }
      else emit sB
  else
    (s0, false)

/-- `DOMTextScanner._checkCharacterBackward`: mirror of the forward step with
content prepended and offset reverted by incrementing. -/
def checkCharacterBackward (s0 : DOMTextScanner) (char : Char) (charAttributes : Nat) :
    DOMTextScanner × Bool :=
  let emit : DOMTextScanner → DOMTextScanner × Bool := fun s =>
    let s' := { s with content := char :: s.content, remainder := s.remainder - 1 }
    (s', s'.remainder = 0)
  if charAttributes = 1 then
    ({ s0 with lineHasWhitespace := true }, false)
  else if charAttributes = 2 ∨ charAttributes = 3 then
    let sA :=
      if 0 < s0.newlines then
        if 0 < s0.content.length then
          let useNewlineCount := min s0.remainder s0.newlines
          { s0 with content := List.replicate useNewlineCount '\n' ++ s0.content,
                    remainder := s0.remainder - useNewlineCount,
                    newlines := s0.newlines - useNewlineCount,
                    lineHasContent := false, lineHasWhitespace := false }
        else
          { s0 with newlines := 0, lineHasContent := false, lineHasWhitespace := false }
      else s0
    if 0 < s0.newlines ∧ sA.remainder = 0 then
      ({ sA with offset := sA.offset + 1 }, true)
    else
      let sB := { sA with lineHasContent := charAttributes = 2 }
      if sB.lineHasWhitespace then
        if sB.lineHasContent then
          let sC := { sB with content := ' ' :: sB.content, lineHasWhitespace := false,
                              remainder := sB.remainder - 1 }
          if sC.remainder = 0 then ({ sC with offset := sC.offset + 1 }, true)
          else emit sC
        else emit { sB with lineHasWhitespace := false }
      else emit sB
  else
    (s0, false)

/-- The character loop of `DOMTextScanner._seekTextNodeForward`.  The fuel is
always called with at least `value.length + 1`, which the loop can never
exhaust since each non-breaking iteration advances `offset` by one. -/
def seekTextNodeForwardLoop (value : List Char) (preserveNewlines preserveWhitespace : Bool) :
    Nat → DOMTextScanner → DOMTextScanner
  | 0, s => s
  | fuel + 1, s =>
    if s.offset < value.length then
      match value[s.offset]? with
      | some char =>
        let s1 := { s with offset := s.offset + 1 }
        let charAttributes := getCharacterAttributes char preserveNewlines preserveWhitespace
        let r := checkCharacterForward s1 char charAttributes
        if r.2 then r.1
        else seekTextNodeForwardLoop value preserveNewlines preserveWhitespace fuel r.1
      | none => s
    else s

/-- The character loop of `DOMTextScanner._seekTextNodeBackward`. -/
def seekTextNodeBackwardLoop (value : List Char) (preserveNewlines preserveWhitespace : Bool) :
    Nat → DOMTextScanner → DOMTextScanner
  | 0, s => s
  | fuel + 1, s =>
    if 0 < s.offset then
      match value[s.offset - 1]? with
      | some char =>
        let s1 := { s with offset := s.offset - 1 }
        let charAttributes := getCharacterAttributes char preserveNewlines preserveWhitespace
        let r := checkCharacterBackward s1 char charAttributes
        if r.2 then r.1
        else seekTextNodeBackwardLoop value preserveNewlines preserveWhitespace fuel r.1
      | none => s
    else s

/-- `DOMTextScanner._seekTextNodeForward` for the text node at `p` with value
`value`; returns the state and whether scanning should continue. -/
def seekTextNodeForward (root : DomNode) (p : NodePath) (value : List Char)
    (resetOffset : Bool) (s : DOMTextScanner) : DOMTextScanner × Bool :=
  let ws := getWhitespaceSettings root p s.forcePreserveWhitespace
  let s1 := if resetOffset then { s with offset := 0 } else s
  let s2 := seekTextNodeForwardLoop value ws.1 ws.2 (value.length + 1) s1
  (s2, decide (0 < s2.remainder))

/-- `DOMTextScanner._seekTextNodeBackward`. -/
def seekTextNodeBackward (root : DomNode) (p : NodePath) (value : List Char)
    (resetOffset : Bool) (s : DOMTextScanner) : DOMTextScanner × Bool :=
  let ws := getWhitespaceSettings root p s.forcePreserveWhitespace
  let s1 := if resetOffset then { s with offset := value.length } else s
  let s2 := seekTextNodeBackwardLoop value ws.1 ws.2 (value.length + 1) s1
  (s2, decide (0 < s2.remainder))

/-- One iteration body of the `seek` while-loop, up to the `getNextNode` call:
processes the node at `p` and returns `(state, lastNode, enterable, break)`. -/
def seekStep (root : DomNode) (forward : Bool) (p : NodePath) (lastNode : NodePath)
    (resetOffset : Bool) (s : DOMTextScanner) : DOMTextScanner × NodePath × Bool × Bool :=
  match nodeAt root p with
  | some (DomNode.text value) =>
    let r := if forward then seekTextNodeForward root p value resetOffset s
             else seekTextNodeBackward root p value resetOffset s
    (r.1, p, false, !r.2)
  | some (DomNode.element tagName style _) =>
    let s1 := { s with offset := 0 }
    let info := getElementSeekInfo tagName style
    let s2 := if s1.newlines < info.newlines && s1.generateLayoutContent then
                { s1 with newlines := info.newlines }
              else s1
    (s2, p, info.enterable, false)
  | none => (s, lastNode, false, false)

/-- The exited-nodes pass of the `seek` loop: raise the pending newline count
for each exited element. -/
def processExited (root : DomNode) (s : DOMTextScanner) : List NodePath → DOMTextScanner
  | [] => s
  | q :: rest =>
    let s' :=
      match nodeAt root q with
      | some (DomNode.element tagName style _) =>
        let info := getElementSeekInfo tagName style
        if s.newlines < info.newlines && s.generateLayoutContent then
          { s with newlines := info.newlines }
        else s
      | _ => s
    processExited root s' rest

/-- The `seek` while-loop.  `none` means the fuel ran out (never happens with
the fuel used by `seek`, see the termination theorem); `some` carries the final
state, the last visited node and the reset-offset flag. -/
def seekLoop (root : DomNode) (forward : Bool) :
    Nat → Option NodePath → NodePath → Bool → DOMTextScanner →
    Option (DOMTextScanner × NodePath × Bool)
  | 0, _, _, _, _ => none
  | _ + 1, none, lastNode, resetOffset, s => some (s, lastNode, resetOffset)
  | fuel + 1, some p, lastNode, resetOffset, s =>
    let r := seekStep root forward p lastNode resetOffset s
    if r.2.2.2 then
      some (r.1, r.2.1, resetOffset)
    else
      let nx := getNextNode root p forward r.2.2.1
      let s2 := processExited root r.1 nx.2
      seekLoop root forward fuel nx.1 r.2.1 true s2

/-- `DOMTextScanner.seek`.  The loop fuel `nodeCount root + 1` is sufficient
because the traversal visits each node at most once; the fallback branch is
unreachable for positions inside the document. -/
def seek (root : DomNode) (s : DOMTextScanner) (length : Int) : DOMTextScanner :=
  let forward := decide (0 ≤ length)
  let s1 := { s with remainder := length.natAbs }
  if length = 0 then s1
  else
    match seekLoop root forward (nodeCount root + 1) (some s1.node) s1.node s1.resetOffset s1 with
    | some (s2, lastNode, resetOffset) =>
      { s2 with node := lastNode, resetOffset := resetOffset }
    | none => s1

/-! ## Derived definitions used by the verification -/

/-- Ghost trace of the `seek` while-loop: the text and element nodes it visits,
in order, mirroring `seekLoop` branch for branch.  In the source, `lastNode`
is updated exactly at these nodes, so the loop's final node is the last entry
of this list (or the starting node when the list is empty). -/
def seekLoopVisited (root : DomNode) (forward : Bool) :
    Nat → Option NodePath → NodePath → Bool → DOMTextScanner → List NodePath
  | 0, _, _, _, _ => []
  | _ + 1, none, _, _, _ => []
  | fuel + 1, some p, lastNode, resetOffset, s =>
    let visitedHere :=
      match nodeAt root p with
      | some (DomNode.text _) => [p]
      | some (DomNode.element _ _ _) => [p]
      | none => []
    let r := seekStep root forward p lastNode resetOffset s
    if r.2.2.2 then visitedHere
    else
      let nx := getNextNode root p forward r.2.2.1
      visitedHere ++
        seekLoopVisited root forward fuel nx.1 r.2.1 true (processExited root r.1 nx.2)

/-- The nodes a `seek(length)` call visits, in order. -/
def seekVisited (root : DomNode) (s : DOMTextScanner) (length : Int) : List NodePath :=
  if length = 0 then []
  else
    seekLoopVisited root (decide (0 ≤ length)) (nodeCount root + 1) (some s.node) s.node
      s.resetOffset { s with remainder := length.natAbs }

/-- The `enterable` flag the seek loop passes to `getNextNode` for the node at `p`
(text nodes and invalid positions are never entered). -/
def enterableAt (root : DomNode) (p : NodePath) : Bool :=
  match nodeAt root p with
  | some (DomNode.element tagName style _) => (getElementSeekInfo tagName style).enterable
  | _ => false

/-- The next position the seek loop moves to from `p`. -/
def stepNode (root : DomNode) (forward : Bool) (p : NodePath) : Option NodePath :=
  (getNextNode root p forward (enterableAt root p)).1

/-- `p` is a strict descendant of `q` (reversed-path representation: descendants
extend the ancestor's path on the left). -/
def strictlyInside (q p : NodePath) : Prop := ∃ r, r ≠ [] ∧ p = r ++ q

/-- A character the scanner treats as ordinary: significant under all whitespace
settings (not whitespace, newline, or a zero-width character). -/
def isOrdinaryChar (c : Char) : Prop :=
  c.toNat ∉ ([0x09, 0x0a, 0x0c, 0x0d, 0x20, 0x200b, 0x200c] : List Nat)

instance (c : Char) : Decidable (isOrdinaryChar c) := by
  unfold isOrdinaryChar; infer_instance

/-- Pre-order comparison of root-first index lists: a proper prefix precedes its
extensions, otherwise the first differing index decides. -/
def lexLtB : List Nat → List Nat → Bool
  | _, [] => false
  | [], _ :: _ => true
  | a :: as, b :: bs => if a < b then true else if a = b then lexLtB as bs else false

/-- Post-order comparison of root-first index lists: descendants precede their
ancestors, otherwise the first differing index decides. -/
def postLexLtB : List Nat → List Nat → Bool
  | [], _ => false
  | _ :: _, [] => true
  | a :: as, b :: bs => if a < b then true else if a = b then postLexLtB as bs else false

/-- `p` comes strictly before `q` in pre-order (document order). -/
def preLtB (p q : NodePath) : Bool := lexLtB p.reverse q.reverse

/-- `p` comes strictly before `q` in post-order (reverse traversal order). -/
def postLtB (p q : NodePath) : Bool := postLexLtB p.reverse q.reverse

/-- Number of valid positions still ahead of `p` in the direction of travel. -/
def seekMeasure (root : DomNode) (forward : Bool) (p : NodePath) : Nat :=
  if forward then ((pathsOf root).filter (fun q => preLtB p q)).length
  else ((pathsOf root).filter (fun q => postLtB q p)).length

/-- Modelled from the spec (amended for the `ruby` cases): the computed display
values whose outer display type breaks layout flow — block, flex, grid,
list-item, table and table parts, and the hyphenated ruby part values. -/
def claimBreaksFlow (d : String) : Bool :=
  d == "block" || d == "flex" || d == "grid" || d == "list-item" ||
  d == "table" || "table-".toList.isPrefixOf d.toList || "ruby-".toList.isPrefixOf d.toList

/-- Real single-keyword computed values of the CSS `display` property. -/
def cssDisplayValues : List String :=
  ["block", "inline", "inline-block", "flow-root", "run-in",
   "flex", "inline-flex", "grid", "inline-grid", "list-item",
   "table", "inline-table", "table-row", "table-cell", "table-column",
   "table-caption", "table-row-group", "table-header-group",
   "table-footer-group", "table-column-group",
   "ruby", "ruby-base", "ruby-text", "ruby-base-container",
   "ruby-text-container", "contents"]

/-- A fully visible computed style with the given display value. -/
def visibleStyle (display : String) : ComputedStyle :=
  { display := display, position := "static", visibility := "visible",
    opacity := some 1, fontSize := some 16, color := "rgb(0, 0, 0)",
    webkitTextFillColor := "rgb(0, 0, 0)", whiteSpace := "normal",
    userSelect := "auto", webkitUserSelect := "auto",
    MozUserSelect := "auto", msUserSelect := "auto" }

/-- The document of the whitespace-collapsing example: a single text node
`"a   b"` (three interior spaces). -/
def docCollapse : DomNode := DomNode.text "a   b".toList

/-- The document of the block-boundary example: two sibling `<div>`s holding
`"foo"` and `"bar"`. -/
def docTwoDivs : DomNode :=
  DomNode.element "DIV" (visibleStyle "block")
    [DomNode.element "DIV" (visibleStyle "block") [DomNode.text "foo".toList],
     DomNode.element "DIV" (visibleStyle "block") [DomNode.text "bar".toList]]

/-- A document whose first child is a `<script>` holding text, next to a plain
text node (used to witness the non-enterable element claims). -/
def docScript : DomNode :=
  DomNode.element "DIV" (visibleStyle "block")
    [DomNode.element "SCRIPT" (visibleStyle "block") [DomNode.text "xyz".toList],
     DomNode.text "abc".toList]

/-! ## Theorems -/

/-- C7: `seek(0)` is a no-op — it returns immediately with `remainder` set to 0
and every other field of the cursor (node, offset, content, and all
whitespace/newline bookkeeping state) unchanged. -/
theorem seek_zero_noop (root : DomNode) (s : DOMTextScanner) :
    seek root s 0 = { s with remainder := 0 } := rfl

/-- C2 counterexample: on the document consisting of the single text `"a   b"`
(three interior spaces), a cursor at offset 0 with default whitespace handling
does not end `seek(5)` with `remainder = 0` — the claim fails as stated. -/
theorem collapse_remainder_ne_zero :
    (seek docCollapse (mkDOMTextScanner docCollapse [] 0 false true) 5).remainder ≠ 0 := by
  decide

/-- C2 (amended): on the single text `"a   b"` with default whitespace handling,
`seek(5)` produces content exactly `"a b"` and remainder exactly 2 — the three
collapsible spaces collapse into one emitted space, so only 3 of the 5 requested
characters are emitted and the document is exhausted with a shortfall of 2. -/
theorem collapse_content_and_remainder :
    (seek docCollapse (mkDOMTextScanner docCollapse [] 0 false true) 5).content = "a b".toList ∧
    (seek docCollapse (mkDOMTextScanner docCollapse [] 0 false true) 5).remainder = 2 := by
  decide

/-- C4: scanning forward across the boundary between two sibling block `<div>`s
holding `"foo"` and `"bar"` synthesizes exactly one `'\n'` between them when
`generateLayoutContent = true` (content `"foo\nbar"`), and zero `'\n'` when
`generateLayoutContent = false` (content `"foobar"`). -/
theorem block_boundary_newlines :
    (seek docTwoDivs (mkDOMTextScanner docTwoDivs [0, 0] 0 false true) 7).content = "foo\nbar".toList ∧
    ((seek docTwoDivs (mkDOMTextScanner docTwoDivs [0, 0] 0 false true) 7).content.count '\n') = 1 ∧
    (seek docTwoDivs (mkDOMTextScanner docTwoDivs [0, 0] 0 false false) 6).content = "foobar".toList ∧
    ((seek docTwoDivs (mkDOMTextScanner docTwoDivs [0, 0] 0 false false) 6).content.count '\n') = 0 := by
  decide

/-- C3 counterexample: for a visible, statically positioned element, the code
assigns `newlines = 0` to the ruby container display value `"ruby"` and
`newlines = 1` to the ruby-text part value `"ruby-text"` — the opposite of the
claim (`doesCSSDisplayChangeLayout` returns `pos >= 0`, i.e. it is the
hyphenated `ruby-*` values that count as layout-breaking). -/
theorem ruby_newlines_inverted :
    (getElementSeekInfo "SPAN" (visibleStyle "ruby")).newlines = 0 ∧
    (getElementSeekInfo "SPAN" (visibleStyle "ruby-text")).newlines = 1 := by
  decide

/-- C5: the character classification, characterized for every character and
every flag pair.  `1` (collapsible whitespace) holds exactly for tab, form
feed, carriage return and space when whitespace is not preserved, and for line
feed when newlines are not preserved; `0` (ignorable) exactly for zero-width
space and zero-width non-joiner; `3` (significant preserved newline) exactly
for line feed with newlines preserved; and `2` (significant) for preserved
whitespace and for every other character (a preserved newline is class `3`,
not `2`). -/
theorem getCharacterAttributes_spec (c : Char) (pn pw : Bool) :
    (getCharacterAttributes c pn pw = 1 ↔
      (((c.toNat = 0x09 ∨ c.toNat = 0x0c ∨ c.toNat = 0x0d ∨ c.toNat = 0x20) ∧ pw = false) ∨
        (c.toNat = 0x0a ∧ pn = false))) ∧
    (getCharacterAttributes c pn pw = 0 ↔ (c.toNat = 0x200b ∨ c.toNat = 0x200c)) ∧
    (getCharacterAttributes c pn pw = 3 ↔ (c.toNat = 0x0a ∧ pn = true)) ∧
    (getCharacterAttributes c pn pw = 2 ↔
      (((c.toNat = 0x09 ∨ c.toNat = 0x0c ∨ c.toNat = 0x0d ∨ c.toNat = 0x20) ∧ pw = true) ∨
        c.toNat ∉ ([0x09, 0x0a, 0x0c, 0x0d, 0x20, 0x200b, 0x200c] : List Nat))) := by
  simp only [getCharacterAttributes, List.mem_cons, List.not_mem_nil]
  split_ifs <;> cases pn <;> cases pw <;> simp_all <;> omega

/-- On every real single-keyword display value, the source's layout-break test
agrees with the (amended) claim-side list: block, flex, grid, list-item, table
and table parts, and the hyphenated ruby part values. -/
theorem breaksFlow_agree :
    ∀ d ∈ cssDisplayValues, doesCSSDisplayChangeLayout d = claimBreaksFlow d := by
  decide

/-- C3 (amended): for every visible, in-flow element whose tag is not one of the
special-cased ones, `newlines` is 2 exactly for out-of-flow positioning
(absolute/fixed/sticky), otherwise 1 exactly when the computed display value
breaks layout flow — block, flex, grid, list-item, table and table parts, or a
hyphenated `ruby-*` part value — and 0 for plain inline values and for the ruby
container value `"ruby"` itself (the claim had the two ruby cases swapped). -/
theorem element_newlines_spec (tag : String) (st : ComputedStyle)
    (htag : toUpperCase tag ∉
      (["HEAD", "RT", "SCRIPT", "STYLE", "BR", "TEXTAREA", "INPUT", "BUTTON"] : List String))
    (hdisp : st.display ∈ cssDisplayValues)
    (hnone : st.display ≠ "none")
    (hvis : isStyleVisible st = true) :
    (getElementSeekInfo tag st).newlines =
      if st.position = "absolute" ∨ st.position = "fixed" ∨ st.position = "sticky" then 2
      else if claimBreaksFlow st.display then 1 else 0 := by
  simp only [List.mem_cons, List.not_mem_nil, or_false] at htag
  push_neg at htag
  obtain ⟨h1, h2, h3, h4, h5, _, _, _⟩ := htag
  have hb : (toUpperCase tag == "HEAD" || toUpperCase tag == "RT" ||
      toUpperCase tag == "SCRIPT" || toUpperCase tag == "STYLE") = false := by
    simp [h1, h2, h3, h4]
  have hbr : (toUpperCase tag == "BR") = false := by simp [h5]
  have hvisB : (st.display != "none" && isStyleVisible st) = true := by
    simp [hvis, hnone]
  simp only [getElementSeekInfo, hb, hbr, hvisB, Bool.false_eq_true, if_false,
    Bool.not_true]
  by_cases hpos : st.position = "absolute" ∨ st.position = "fixed" ∨ st.position = "sticky"
  · have hposB : (st.position == "absolute" || st.position == "fixed" ||
        st.position == "sticky") = true := by
      rcases hpos with h | h | h <;> simp [h]
    simp [hposB, hpos]
  · push_neg at hpos
    obtain ⟨hp1, hp2, hp3⟩ := hpos
    have hposB : (st.position == "absolute" || st.position == "fixed" ||
        st.position == "sticky") = false := by simp [hp1, hp2, hp3]
    have hposP : ¬(st.position = "absolute" ∨ st.position = "fixed" ∨ st.position = "sticky") := by
      simp [hp1, hp2, hp3]
    simp [hposB, hposP, breaksFlow_agree st.display hdisp]

/-- C3 witness: the amended characterization applied to a visible block `<div>`
(in-flow, so `newlines` is decided by the display value). -/
theorem element_newlines_spec_witness :
    (getElementSeekInfo "DIV" (visibleStyle "block")).newlines =
      if (visibleStyle "block").position = "absolute" ∨
          (visibleStyle "block").position = "fixed" ∨
          (visibleStyle "block").position = "sticky" then 2
      else if claimBreaksFlow (visibleStyle "block").display then 1 else 0 :=
  element_newlines_spec "DIV" (visibleStyle "block") (by decide) (by decide)
    (by decide) (by decide)

/-- Accounting step for the forward character machine: the sum of emitted
content length and remainder is preserved, content only grows, and when the
machine does not signal a stop the remainder is still positive. -/
theorem checkCharacterForward_accounting (s : DOMTextScanner) (c : Char) (a : Nat)
    (h : 1 ≤ s.remainder) :
    (checkCharacterForward s c a).1.content.length + (checkCharacterForward s c a).1.remainder
      = s.content.length + s.remainder ∧
    s.content.length ≤ (checkCharacterForward s c a).1.content.length ∧
    ((checkCharacterForward s c a).2 = false → 1 ≤ (checkCharacterForward s c a).1.remainder) := by
  simp only [checkCharacterForward]
  split_ifs <;>
    simp_all [List.length_append, List.length_replicate, decide_eq_false_iff_not] <;>
    omega

/-- Accounting step for the backward character machine. -/
theorem checkCharacterBackward_accounting (s : DOMTextScanner) (c : Char) (a : Nat)
    (h : 1 ≤ s.remainder) :
    (checkCharacterBackward s c a).1.content.length + (checkCharacterBackward s c a).1.remainder
      = s.content.length + s.remainder ∧
    s.content.length ≤ (checkCharacterBackward s c a).1.content.length ∧
    ((checkCharacterBackward s c a).2 = false → 1 ≤ (checkCharacterBackward s c a).1.remainder) := by
  simp only [checkCharacterBackward]
  split_ifs <;>
    simp_all [List.length_append, List.length_replicate, decide_eq_false_iff_not] <;>
    omega

/-- Accounting for the forward character loop of a text node. -/
theorem seekTextNodeForwardLoop_accounting (value : List Char) (pn pw : Bool) :
    ∀ fuel s, 1 ≤ s.remainder →
      (seekTextNodeForwardLoop value pn pw fuel s).content.length +
          (seekTextNodeForwardLoop value pn pw fuel s).remainder
        = s.content.length + s.remainder ∧
      s.content.length ≤ (seekTextNodeForwardLoop value pn pw fuel s).content.length := by
  intro fuel
  induction fuel with
  | zero => intro s _; simp [seekTextNodeForwardLoop]
  | succ n ih =>
    intro s hs
    simp only [seekTextNodeForwardLoop]
    by_cases hlt : s.offset < value.length
    · simp only [hlt, if_true]
      match hv : value[s.offset]? with
      | none => simp
      | some char =>
        simp only []
        set s1 := { s with offset := s.offset + 1 } with hs1
        have hacc := checkCharacterForward_accounting s1 char
          (getCharacterAttributes char pn pw) (by simpa [hs1] using hs)
        by_cases hbrk : (checkCharacterForward s1 char (getCharacterAttributes char pn pw)).2 = true
        · simp only [hbrk, if_true]
          refine ⟨?_, ?_⟩ <;> simp [hacc.1, hacc.2.1, hs1] at *
        · simp only [Bool.not_eq_true] at hbrk
          simp only [hbrk, Bool.false_eq_true, if_false]
          have h1 := hacc.2.2 hbrk
          have ihr := ih (checkCharacterForward s1 char (getCharacterAttributes char pn pw)).1 h1
          constructor
          · rw [ihr.1]
            have := hacc.1
            simp [hs1] at this ⊢
            omega
          · calc s.content.length ≤ s1.content.length := by simp [hs1]
              _ ≤ _ := le_trans hacc.2.1 ihr.2
    · simp [hlt]

/-- Accounting for the backward character loop of a text node. -/
theorem seekTextNodeBackwardLoop_accounting (value : List Char) (pn pw : Bool) :
    ∀ fuel s, 1 ≤ s.remainder →
      (seekTextNodeBackwardLoop value pn pw fuel s).content.length +
          (seekTextNodeBackwardLoop value pn pw fuel s).remainder
        = s.content.length + s.remainder ∧
      s.content.length ≤ (seekTextNodeBackwardLoop value pn pw fuel s).content.length := by
  intro fuel
  induction fuel with
  | zero => intro s _; simp [seekTextNodeBackwardLoop]
  | succ n ih =>
    intro s hs
    simp only [seekTextNodeBackwardLoop]
    by_cases hlt : 0 < s.offset
    · simp only [hlt, if_true]
      match hv : value[s.offset - 1]? with
      | none => simp
      | some char =>
        simp only []
        set s1 := { s with offset := s.offset - 1 } with hs1
        have hacc := checkCharacterBackward_accounting s1 char
          (getCharacterAttributes char pn pw) (by simpa [hs1] using hs)
        by_cases hbrk : (checkCharacterBackward s1 char (getCharacterAttributes char pn pw)).2 = true
        · simp only [hbrk, if_true]
          refine ⟨?_, ?_⟩ <;> simp [hacc.1, hacc.2.1, hs1] at *
        · simp only [Bool.not_eq_true] at hbrk
          simp only [hbrk, Bool.false_eq_true, if_false]
          have h1 := hacc.2.2 hbrk
          have ihr := ih (checkCharacterBackward s1 char (getCharacterAttributes char pn pw)).1 h1
          constructor
          · rw [ihr.1]
            have := hacc.1
            simp [hs1] at this ⊢
            omega
          · calc s.content.length ≤ s1.content.length := by simp [hs1]
              _ ≤ _ := le_trans hacc.2.1 ihr.2
    · simp [hlt]

/-- Accounting for `_seekTextNodeForward`: sum preserved, content monotone, and
the continue flag is exactly "remainder still positive". -/
theorem seekTextNodeForward_accounting (root : DomNode) (p : NodePath) (value : List Char)
    (resetOffset : Bool) (s : DOMTextScanner) (hs : 1 ≤ s.remainder) :
    (seekTextNodeForward root p value resetOffset s).1.content.length +
        (seekTextNodeForward root p value resetOffset s).1.remainder
      = s.content.length + s.remainder ∧
    s.content.length ≤ (seekTextNodeForward root p value resetOffset s).1.content.length ∧
    ((seekTextNodeForward root p value resetOffset s).2 = true ↔
      1 ≤ (seekTextNodeForward root p value resetOffset s).1.remainder) := by
  simp only [seekTextNodeForward]
  by_cases hro : resetOffset <;>
    simp only [hro, if_true, Bool.false_eq_true, if_false, decide_eq_true_eq]
  · have h := seekTextNodeForwardLoop_accounting value
      (getWhitespaceSettings root p s.forcePreserveWhitespace).1
      (getWhitespaceSettings root p s.forcePreserveWhitespace).2
      (value.length + 1) { s with offset := 0 } (by simpa using hs)
    simp at h
    exact ⟨by omega, h.2, by omega⟩
  · have h := seekTextNodeForwardLoop_accounting value
      (getWhitespaceSettings root p s.forcePreserveWhitespace).1
      (getWhitespaceSettings root p s.forcePreserveWhitespace).2
      (value.length + 1) s hs
    exact ⟨h.1, h.2, by omega⟩

/-- Accounting for `_seekTextNodeBackward`. -/
theorem seekTextNodeBackward_accounting (root : DomNode) (p : NodePath) (value : List Char)
    (resetOffset : Bool) (s : DOMTextScanner) (hs : 1 ≤ s.remainder) :
    (seekTextNodeBackward root p value resetOffset s).1.content.length +
        (seekTextNodeBackward root p value resetOffset s).1.remainder
      = s.content.length + s.remainder ∧
    s.content.length ≤ (seekTextNodeBackward root p value resetOffset s).1.content.length ∧
    ((seekTextNodeBackward root p value resetOffset s).2 = true ↔
      1 ≤ (seekTextNodeBackward root p value resetOffset s).1.remainder) := by
  simp only [seekTextNodeBackward]
  by_cases hro : resetOffset <;>
    simp only [hro, if_true, Bool.false_eq_true, if_false, decide_eq_true_eq]
  · have h := seekTextNodeBackwardLoop_accounting value
      (getWhitespaceSettings root p s.forcePreserveWhitespace).1
      (getWhitespaceSettings root p s.forcePreserveWhitespace).2
      (value.length + 1) { s with offset := value.length } (by simpa using hs)
    simp at h
    exact ⟨by omega, h.2, by omega⟩
  · have h := seekTextNodeBackwardLoop_accounting value
      (getWhitespaceSettings root p s.forcePreserveWhitespace).1
      (getWhitespaceSettings root p s.forcePreserveWhitespace).2
      (value.length + 1) s hs
    exact ⟨h.1, h.2, by omega⟩

/-- `processExited` never changes content or remainder. -/
theorem processExited_content_remainder (root : DomNode) :
    ∀ l s, (processExited root s l).content = s.content ∧
      (processExited root s l).remainder = s.remainder := by
  intro l
  induction l with
  | nil => intro s; simp [processExited]
  | cons q rest ih =>
    intro s
    simp only [processExited]
    match hq : nodeAt root q with
    | some (DomNode.text v) => simpa using ih s
    | some (DomNode.element t st cs) =>
      by_cases hcond : s.newlines < (getElementSeekInfo t st).newlines ∧ s.generateLayoutContent = true
      · have : (decide (s.newlines < (getElementSeekInfo t st).newlines) &&
            s.generateLayoutContent) = true := by simp [hcond.1, hcond.2]
        simp only [this, if_true]
        simpa using ih { s with newlines := (getElementSeekInfo t st).newlines }
      · have : (decide (s.newlines < (getElementSeekInfo t st).newlines) &&
            s.generateLayoutContent) = false := by
          rcases Decidable.not_and_iff_or_not.mp hcond with h | h <;> simp_all
        simp only [this, Bool.false_eq_true, if_false]
        simpa using ih s
    | none => simpa using ih s

/-- Accounting for one node-processing step of the seek loop. -/
theorem seekStep_accounting (root : DomNode) (forward : Bool) (p lastNode : NodePath)
    (resetOffset : Bool) (s : DOMTextScanner) (hs : 1 ≤ s.remainder) :
    (seekStep root forward p lastNode resetOffset s).1.content.length +
        (seekStep root forward p lastNode resetOffset s).1.remainder
      = s.content.length + s.remainder ∧
    s.content.length ≤ (seekStep root forward p lastNode resetOffset s).1.content.length ∧
    ((seekStep root forward p lastNode resetOffset s).2.2.2 = false →
      1 ≤ (seekStep root forward p lastNode resetOffset s).1.remainder) := by
  simp only [seekStep]
  match hq : nodeAt root p with
  | some (DomNode.text value) =>
    by_cases hf : forward = true
    · simp only [hf, if_true]
      have h := seekTextNodeForward_accounting root p value resetOffset s hs
      exact ⟨h.1, h.2.1, by simpa using fun hb => h.2.2.mp hb⟩
    · simp only [Bool.not_eq_true] at hf
      simp only [hf, Bool.false_eq_true, if_false]
      have h := seekTextNodeBackward_accounting root p value resetOffset s hs
      exact ⟨h.1, h.2.1, by simpa using fun hb => h.2.2.mp hb⟩
  | some (DomNode.element t st cs) =>
    by_cases hcond : s.newlines < (getElementSeekInfo t st).newlines ∧ s.generateLayoutContent = true
    · have : (decide (s.newlines < (getElementSeekInfo t st).newlines) &&
          s.generateLayoutContent) = true := by simp [hcond.1, hcond.2]
      simp [this, hs]
    · have : (decide (s.newlines < (getElementSeekInfo t st).newlines) &&
          s.generateLayoutContent) = false := by
        rcases Decidable.not_and_iff_or_not.mp hcond with h | h <;> simp_all
      simp [this, hs]
  | none => simp [hs]

/-- Accounting for the full seek loop: whenever it completes, the sum of
content length and remainder is preserved and content only grows. -/
theorem seekLoop_accounting (root : DomNode) (forward : Bool) :
    ∀ fuel onode lastNode resetOffset s out,
      1 ≤ s.remainder →
      seekLoop root forward fuel onode lastNode resetOffset s = some out →
      out.1.content.length + out.1.remainder = s.content.length + s.remainder ∧
      s.content.length ≤ out.1.content.length := by
  intro fuel
  induction fuel with
  | zero => intro onode lastNode ro s out _ hout; simp [seekLoop] at hout
  | succ n ih =>
    intro onode lastNode ro s out hs hout
    match onode with
    | none =>
      simp only [seekLoop, Option.some_inj] at hout
      simp [← hout]
    | some p =>
      simp only [seekLoop] at hout
      have hstep := seekStep_accounting root forward p lastNode ro s hs
      by_cases hbrk : (seekStep root forward p lastNode ro s).2.2.2 = true
      · simp only [hbrk, if_true, Option.some_inj] at hout
        have h1 := hstep.1
        have h2 := hstep.2.1
        simp [← hout]
        omega
      · simp only [Bool.not_eq_true] at hbrk
        simp only [hbrk, Bool.false_eq_true, if_false] at hout
        have hrem := hstep.2.2 hbrk
        have hpe := processExited_content_remainder root
          (getNextNode root p forward (seekStep root forward p lastNode ro s).2.2.1).2
          (seekStep root forward p lastNode ro s).1
        have ihr := ih _ _ _ _ out (by rw [hpe.2]; assumption) hout
        rw [hpe.1, hpe.2] at ihr
        have h1 := hstep.1
        have h2 := hstep.2.1
        exact ⟨by omega, by omega⟩

/-- Core `seek` accounting: the content length plus the remainder is the old
content length plus `|length|`, content only grows, and `remainder = 0` iff
the content grew by exactly `|length|`. -/
theorem seek_accounting_core (root : DomNode) (s : DOMTextScanner) (length : Int) :
    (seek root s length).content.length + (seek root s length).remainder
      = s.content.length + length.natAbs ∧
    s.content.length ≤ (seek root s length).content.length ∧
    ((seek root s length).remainder = 0 ↔
      (seek root s length).content.length = s.content.length + length.natAbs) := by
  by_cases h0 : length = 0
  · subst h0
    simp [seek]
  · simp only [seek, h0, Bool.false_eq_true, if_false]
    have hnat : 1 ≤ length.natAbs := by
      rcases Int.natAbs_pos.mpr h0 with h
      omega
    match hout : seekLoop root (decide (0 ≤ length)) (nodeCount root + 1)
        (some ({ s with remainder := length.natAbs } : DOMTextScanner).node)
        ({ s with remainder := length.natAbs } : DOMTextScanner).node
        ({ s with remainder := length.natAbs } : DOMTextScanner).resetOffset
        { s with remainder := length.natAbs } with
    | some out =>
      obtain ⟨s2, last2, ro2⟩ := out
      have hacc := seekLoop_accounting root (decide (0 ≤ length)) _ _ _ _
        { s with remainder := length.natAbs } (s2, last2, ro2) (by simpa using hnat) hout
      simp at hacc ⊢
      omega
    | none =>
      simp

/-- An ordinary character is always classified significant (class `2`). -/
theorem getCharacterAttributes_ordinary (c : Char) (h : isOrdinaryChar c) (pn pw : Bool) :
    getCharacterAttributes c pn pw = 2 := by
  simp [isOrdinaryChar, List.mem_cons] at h
  simp [getCharacterAttributes]
  split_ifs <;> simp_all

/-- With no pending newlines and no pending whitespace, a significant character
is simply emitted: appended to content, remainder decremented, line marked as
having content; the machine stops exactly when the remainder hits zero. -/
theorem checkCharacterForward_plain (s : DOMTextScanner) (c : Char)
    (hn : s.newlines = 0) (hw : s.lineHasWhitespace = false) :
    checkCharacterForward s c 2 =
      ({ s with content := s.content ++ [c], remainder := s.remainder - 1,
                lineHasContent := true },
       decide (s.remainder - 1 = 0)) := by
  simp [checkCharacterForward, hn, hw]

/-- Backward analogue of `checkCharacterForward_plain` (content prepended). -/
theorem checkCharacterBackward_plain (s : DOMTextScanner) (c : Char)
    (hn : s.newlines = 0) (hw : s.lineHasWhitespace = false) :
    checkCharacterBackward s c 2 =
      ({ s with content := c :: s.content, remainder := s.remainder - 1,
                lineHasContent := true },
       decide (s.remainder - 1 = 0)) := by
  simp [checkCharacterBackward, hn, hw]

/-- On all-ordinary text the forward character loop consumes exactly
`remainder` characters starting at the current offset. -/
theorem seekTextNodeForwardLoop_ordinary (value : List Char) (pn pw : Bool)
    (hval : ∀ c ∈ value, isOrdinaryChar c) :
    ∀ r o fuel s, s.offset = o → s.remainder = r → s.newlines = 0 →
      s.lineHasWhitespace = false → 1 ≤ r → o + r ≤ value.length → r ≤ fuel →
      seekTextNodeForwardLoop value pn pw fuel s =
        { s with offset := o + r, remainder := 0,
                 content := s.content ++ (value.drop o).take r, lineHasContent := true } := by
  intro r
  induction r with
  | zero => intro o fuel s _ _ _ _ h1 _ _; omega
  | succ n ih =>
    intro o fuel s hso hsr hn hw h1 hbound hfuel
    match fuel, hfuel with
    | m + 1, _ =>
      have hlt : s.offset < value.length := by omega
      have hidx2 : o < value.length := by omega
      have hmem : value.get ⟨o, hidx2⟩ ∈ value := List.get_mem _ _ _
      have hord := hval _ hmem
      rw [List.get_eq_getElem] at hord
      simp only [seekTextNodeForwardLoop, hlt, if_true,
        List.getElem?_eq_getElem (show o < value.length by omega), hso]
      rw [getCharacterAttributes_ordinary _ hord,
        checkCharacterForward_plain _ _ (by simpa using hn) (by simpa using hw)]
      simp only [hsr]
      match n, h1 with
      | 0, _ =>
        simp only [Nat.add_sub_cancel, decide_eq_true_eq, if_pos rfl]
        have hdrop : value.drop o = value.get ⟨o, by omega⟩ :: value.drop (o + 1) :=
          (List.getElem_cons_drop _ _ (by omega)).symm
        have ht : List.take (0 + 1) (List.drop o value) = [value.get ⟨o, by omega⟩] := by
          rw [hdrop, List.take_succ_cons, List.take_zero]
        rw [ht]
        simp [show o < value.length from by omega, List.get_eq_getElem]
      | k + 1, _ =>
        have hne : ¬(k + 1 + 1 - 1 = 0) := by omega
        simp only [Nat.add_sub_cancel, decide_eq_false hne, Bool.false_eq_true, if_false]
        rw [ih (o + 1) m _ (by simp [hso]) (by simp) (by simpa using hn)
          (by simpa using hw) (by omega) (by omega) (by omega)]
        have hdrop : value.drop o = value.get ⟨o, by omega⟩ :: value.drop (o + 1) :=
          (List.getElem_cons_drop _ _ (by omega)).symm
        have htake : (value.drop o).take (k + 1 + 1) =
            value.get ⟨o, by omega⟩ :: (value.drop (o + 1)).take (k + 1) := by
          rw [hdrop, List.take_succ_cons]
        rw [htake]
        have hk : (decide (k + 1 = 0)) = false := by simp
        simp [show o < value.length from by omega, hk, List.get_eq_getElem]
        omega

/-- On all-ordinary text the backward character loop consumes exactly
`remainder` characters ending just before the current offset. -/
theorem seekTextNodeBackwardLoop_ordinary (value : List Char) (pn pw : Bool)
    (hval : ∀ c ∈ value, isOrdinaryChar c) :
    ∀ r o fuel s, s.offset = o → s.remainder = r → s.newlines = 0 →
      s.lineHasWhitespace = false → 1 ≤ r → r ≤ o → o ≤ value.length → r ≤ fuel →
      seekTextNodeBackwardLoop value pn pw fuel s =
        { s with offset := o - r, remainder := 0,
                 content := (value.drop (o - r)).take r ++ s.content,
                 lineHasContent := true } := by
  intro r
  induction r with
  | zero => intro o fuel s _ _ _ _ h1 _ _ _; omega
  | succ n ih =>
    intro o fuel s hso hsr hn hw h1 hro hov hfuel
    match fuel, hfuel with
    | m + 1, _ =>
      have hpos : 0 < s.offset := by omega
      have hidx : o - 1 < value.length := by omega
      have hmem : value.get ⟨o - 1, hidx⟩ ∈ value := List.get_mem _ _ _
      have hord := hval _ hmem
      rw [List.get_eq_getElem] at hord
      have hoff : s.offset - 1 = o - 1 := by omega
      simp only [seekTextNodeBackwardLoop, hpos, if_true, hoff,
        List.getElem?_eq_getElem hidx]
      rw [getCharacterAttributes_ordinary _ hord,
        checkCharacterBackward_plain _ _ (by simpa using hn) (by simpa using hw)]
      simp only [hsr]
      match n, h1 with
      | 0, _ =>
        have ht : List.take (0 + 1) (List.drop (o - 1) value) = [value.get ⟨o - 1, hidx⟩] := by
          rw [(List.getElem_cons_drop _ _ hidx).symm, List.take_succ_cons, List.take_zero]
          simp [List.get_eq_getElem]
        rw [ht]
        simp [show 0 < o from by omega, List.get_eq_getElem, hoff]
      | k + 1, _ =>
        have hk : (decide (k + 1 = 0)) = false := by simp
        rw [ih (o - 1) m _ (by simp [hoff]) (by simp) (by simpa using hn)
          (by simpa using hw) (by omega) (by omega) (by omega) (by omega)]
        have hj : o - 1 - (k + 1) = o - (k + 1 + 1) := by omega
        have hsplit : List.take (k + 1 + 1) (List.drop (o - (k + 1 + 1)) value) =
            List.take (k + 1) (List.drop (o - (k + 1 + 1)) value) ++ [value.get ⟨o - 1, hidx⟩] := by
          rw [List.take_succ]
          have : (List.drop (o - (k + 1 + 1)) value)[k + 1]? = some (value.get ⟨o - 1, hidx⟩) := by
            rw [List.getElem?_drop]
            have harg : o - (k + 1 + 1) + (k + 1) = o - 1 := by omega
            rw [harg, List.getElem?_eq_getElem hidx]
            simp
          rw [this]
          simp
        rw [hj, hsplit]
        simp [show 0 < o from by omega, hk, List.get_eq_getElem]

/-- Forward `seek` starting at a text node of ordinary characters, entirely
inside that node: consumes exactly `n` characters from the node regardless of
the surrounding tree. -/
theorem seek_text_forward_ordinary (root : DomNode) (p : NodePath) (value : List Char)
    (s : DOMTextScanner) (o n : Nat)
    (htext : nodeAt root p = some (DomNode.text value))
    (hval : ∀ c ∈ value, isOrdinaryChar c)
    (hnode : s.node = p) (hoff : s.offset = o) (hn : s.newlines = 0)
    (hw : s.lineHasWhitespace = false) (hro : s.resetOffset = false)
    (h1 : 1 ≤ n) (hbound : o + n ≤ value.length) :
    seek root s (n : Int) =
      { s with offset := o + n, remainder := 0,
               content := s.content ++ (value.drop o).take n, lineHasContent := true } := by
  have h0 : (n : Int) ≠ 0 := by
    simp only [ne_eq, Int.natCast_eq_zero]
    omega
  have hfwd : decide ((0 : Int) ≤ (n : Int)) = true := by simp
  simp only [seek, h0, if_false, hfwd, Int.natAbs_ofNat, hnode, hro]
  simp only [seekLoop, seekStep, htext, if_true, seekTextNodeForward,
    Bool.false_eq_true, if_false]
  rw [seekTextNodeForwardLoop_ordinary value _ _ hval n o (value.length + 1)
    { s with node := p, remainder := n, resetOffset := false }
    (by simpa using hoff) (by simp) (by simpa using hn)
    (by simpa using hw) h1 hbound (by omega)]
  simp

/-- Backward `seek` starting at a text node of ordinary characters, entirely
inside that node. -/
theorem seek_text_backward_ordinary (root : DomNode) (p : NodePath) (value : List Char)
    (s : DOMTextScanner) (o n : Nat)
    (htext : nodeAt root p = some (DomNode.text value))
    (hval : ∀ c ∈ value, isOrdinaryChar c)
    (hnode : s.node = p) (hoff : s.offset = o) (hn : s.newlines = 0)
    (hw : s.lineHasWhitespace = false) (hro : s.resetOffset = false)
    (h1 : 1 ≤ n) (hno : n ≤ o) (hov : o ≤ value.length) :
    seek root s (-(n : Int)) =
      { s with offset := o - n, remainder := 0,
               content := (value.drop (o - n)).take n ++ s.content,
               lineHasContent := true } := by
  have h0 : (-(n : Int)) ≠ 0 := by
    simp only [ne_eq, neg_eq_zero, Int.natCast_eq_zero]
    omega
  have hfwd : decide ((0 : Int) ≤ (-(n : Int))) = false := by
    simp only [decide_eq_false_iff_not, not_le]
    omega
  have habs : (-(n : Int)).natAbs = n := by simp
  simp only [seek, h0, if_false, hfwd, habs, hnode, hro]
  simp only [seekLoop, seekStep, htext, Bool.false_eq_true, if_false, seekTextNodeBackward]
  rw [seekTextNodeBackwardLoop_ordinary value _ _ hval n o (value.length + 1)
    { s with node := p, remainder := n, resetOffset := false }
    (by simpa using hoff) (by simp) (by simpa using hn)
    (by simpa using hw) h1 hno hov (by omega)]
  simp

/-- C10: a cursor constructed at a text node (whose immediate parent chain is
not rt-under-ruby, so no ruby normalization applies) consumes that node's
characters into content when seeking, regardless of the surrounding tree — in
particular when the text lies inside a non-enterable element such as a script:
the `enterable = false` classification only prevents descending from outside
and never suppresses the text node the scan starts in. -/
theorem seek_inside_nonenterable_consumes (root : DomNode) (p : NodePath)
    (value : List Char) (o n : Nat) (fpw glc : Bool)
    (htext : nodeAt root p = some (DomNode.text value))
    (hruby : getParentRubyElement root p = none)
    (hval : ∀ c ∈ value, isOrdinaryChar c)
    (h1 : 1 ≤ n) (hbound : o + n ≤ value.length) :
    (seek root (mkDOMTextScanner root p o fpw glc) (n : Int)).content = (value.drop o).take n ∧
    (seek root (mkDOMTextScanner root p o fpw glc) (n : Int)).remainder = 0 ∧
    (seek root (mkDOMTextScanner root p o fpw glc) (n : Int)).node = p := by
  have hmk : mkDOMTextScanner root p o fpw glc =
      { node := p, offset := o, content := [], remainder := 0, resetOffset := false,
        newlines := 0, lineHasWhitespace := false, lineHasContent := false,
        forcePreserveWhitespace := fpw, generateLayoutContent := glc } := by
    simp [mkDOMTextScanner, hruby]
  rw [hmk, seek_text_forward_ordinary root p value _ o n htext hval rfl rfl rfl rfl rfl
    h1 hbound]
  simp

/-- C10 witness: a cursor constructed directly at the text inside the
`<script>` element of `docScript` still reads that text. -/
theorem seek_inside_nonenterable_consumes_witness :
    (seek docScript (mkDOMTextScanner docScript [0, 0] 0 false true) ((2 : Nat) : Int)).content =
      ("xyz".toList.drop 0).take 2 ∧
    (seek docScript (mkDOMTextScanner docScript [0, 0] 0 false true) ((2 : Nat) : Int)).remainder = 0 ∧
    (seek docScript (mkDOMTextScanner docScript [0, 0] 0 false true) ((2 : Nat) : Int)).node = [0, 0] :=
  seek_inside_nonenterable_consumes docScript [0, 0] "xyz".toList 0 2 false true rfl rfl
    (by decide) (by decide) (by decide)

/-- C6: round-trip symmetry on ordinary text.  For a document that is a single
text node of ordinary characters (no intervening elements), `seek(n)` followed
by `seek(-n)` from the same starting point yields `remainder = 0` after both
calls and returns the cursor to a position offset-equivalent to the start
(same node, same offset). -/
theorem seek_roundtrip_ordinary (value : List Char) (o n : Nat) (fpw glc : Bool)
    (hval : ∀ c ∈ value, isOrdinaryChar c) (hbound : o + n ≤ value.length) :
    (seek (DomNode.text value) (mkDOMTextScanner (DomNode.text value) [] o fpw glc) (n : Int)).remainder = 0 ∧
    (seek (DomNode.text value) (mkDOMTextScanner (DomNode.text value) [] o fpw glc) (n : Int)).node = [] ∧
    (seek (DomNode.text value) (mkDOMTextScanner (DomNode.text value) [] o fpw glc) (n : Int)).offset = o + n ∧
    (seek (DomNode.text value)
      (seek (DomNode.text value) (mkDOMTextScanner (DomNode.text value) [] o fpw glc) (n : Int))
      (-(n : Int))).remainder = 0 ∧
    (seek (DomNode.text value)
      (seek (DomNode.text value) (mkDOMTextScanner (DomNode.text value) [] o fpw glc) (n : Int))
      (-(n : Int))).node = [] ∧
    (seek (DomNode.text value)
      (seek (DomNode.text value) (mkDOMTextScanner (DomNode.text value) [] o fpw glc) (n : Int))
      (-(n : Int))).offset = o := by
  have hmk : mkDOMTextScanner (DomNode.text value) [] o fpw glc =
      { node := [], offset := o, content := [], remainder := 0, resetOffset := false,
        newlines := 0, lineHasWhitespace := false, lineHasContent := false,
        forcePreserveWhitespace := fpw, generateLayoutContent := glc } := rfl
  rcases Nat.eq_zero_or_pos n with hn0 | hpos
  · subst hn0
    have hz : ((0 : Nat) : Int) = 0 := rfl
    rw [hmk]
    simp only [hz, neg_zero]
    simp [seek]
  · have htext : nodeAt (DomNode.text value) [] = some (DomNode.text value) := rfl
    rw [hmk, seek_text_forward_ordinary (DomNode.text value) [] value _ o n htext hval
      rfl rfl rfl rfl rfl hpos hbound]
    rw [seek_text_backward_ordinary (DomNode.text value) [] value _ (o + n) n htext hval
      rfl rfl rfl rfl rfl hpos (by omega) (by omega)]
    simp

/-- C6 witness: round trip on the text `"abc"` from offset 1 with `n = 2`. -/
theorem seek_roundtrip_ordinary_witness :
    (seek (DomNode.text "abc".toList)
      (mkDOMTextScanner (DomNode.text "abc".toList) [] 1 false true) ((2 : Nat) : Int)).remainder = 0 ∧
    (seek (DomNode.text "abc".toList)
      (mkDOMTextScanner (DomNode.text "abc".toList) [] 1 false true) ((2 : Nat) : Int)).node = [] ∧
    (seek (DomNode.text "abc".toList)
      (mkDOMTextScanner (DomNode.text "abc".toList) [] 1 false true) ((2 : Nat) : Int)).offset = 1 + 2 ∧
    (seek (DomNode.text "abc".toList)
      (seek (DomNode.text "abc".toList)
        (mkDOMTextScanner (DomNode.text "abc".toList) [] 1 false true) ((2 : Nat) : Int))
      (-((2 : Nat) : Int))).remainder = 0 ∧
    (seek (DomNode.text "abc".toList)
      (seek (DomNode.text "abc".toList)
        (mkDOMTextScanner (DomNode.text "abc".toList) [] 1 false true) ((2 : Nat) : Int))
      (-((2 : Nat) : Int))).node = [] ∧
    (seek (DomNode.text "abc".toList)
      (seek (DomNode.text "abc".toList)
        (mkDOMTextScanner (DomNode.text "abc".toList) [] 1 false true) ((2 : Nat) : Int))
      (-((2 : Nat) : Int))).offset = 1 :=
  seek_roundtrip_ordinary "abc".toList 1 2 false true (by decide) (by decide)

/-- If the forward climb finds a next node, it is the next sibling of an
ancestor-or-self: `p = m ++ i :: t` and the result is `(i+1) :: t`, which is a
valid position. -/
theorem climb_forward_some (root : DomNode) :
    ∀ p p', (climb root true p).1 = some p' →
      ∃ i t m, p = m ++ i :: t ∧ p' = (i + 1) :: t ∧ i + 1 < childCount root t := by
  intro p
  induction p with
  | nil => intro p' h; simp [climb] at h
  | cons i q ih =>
    intro p' h
    simp only [climb] at h
    by_cases hs : i + 1 < childCount root q
    · simp only [nextSiblingPath, hs, if_true] at h
      exact ⟨i, q, [], by simp, by simpa using h.symm, hs⟩
    · simp only [nextSiblingPath, hs, if_false] at h
      obtain ⟨i', t, m, hq, hp', hc⟩ := ih p' h
      exact ⟨i', t, i :: m, by simp [hq], hp', hc⟩

/-- Backward analogue of `climb_forward_some`: the result is the previous
sibling of an ancestor-or-self, and is a valid position. -/
theorem climb_backward_some (root : DomNode) :
    ∀ p p', (climb root false p).1 = some p' →
      ∃ i t m, p = m ++ i :: t ∧ p' = (i - 1) :: t ∧ 0 < i ∧ i < childCount root t := by
  intro p
  induction p with
  | nil => intro p' h; simp [climb] at h
  | cons i q ih =>
    intro p' h
    simp only [climb, Bool.false_eq_true, if_false] at h
    simp only [prevSiblingPath] at h
    by_cases hs : 0 < i ∧ i < childCount root q
    · rw [if_pos hs] at h
      simp only [] at h
      exact ⟨i, q, [], by simp, by simpa using h.symm, hs.1, hs.2⟩
    · rw [if_neg hs] at h
      simp only [] at h
      obtain ⟨i', t, m, hq, hp', hc1, hc2⟩ := ih p' h
      exact ⟨i', t, i :: m, by simp [hq], hp', hc1, hc2⟩

/-- Special non-content tags: head, ruby-annotation-text, script and style are
never enterable and contribute no newlines, for every computed style. -/
theorem special_tags_not_enterable (tagName : String)
    (h : toUpperCase tagName ∈ (["HEAD", "RT", "SCRIPT", "STYLE"] : List String))
    (style : ComputedStyle) :
    getElementSeekInfo tagName style = ⟨false, 0⟩ := by
  simp only [List.mem_cons, List.not_mem_nil, or_false] at h
  unfold getElementSeekInfo
  rcases h with h | h | h | h <;> simp [h]

/-- Stepping never enters the subtree of a non-enterable node: if `p` is not
strictly inside `q` and `q` is not enterable, the next visited position is not
strictly inside `q` either. -/
theorem stepNode_avoids_nonenterable (root : DomNode) (forward : Bool)
    (q p p' : NodePath) (hq : enterableAt root q = false)
    (hout : ¬ strictlyInside q p) (hstep : stepNode root forward p = some p') :
    ¬ strictlyInside q p' := by
  unfold stepNode getNextNode at hstep
  rcases hnext : (if enterableAt root p then
      (if forward then firstChildPath root p else lastChildPath root p) else none) with _ | c
  · rw [hnext] at hstep
    simp only [] at hstep
    by_cases hf : forward = true
    · subst hf
      obtain ⟨i, t, m, hp, hp', _⟩ := climb_forward_some root p p' hstep
      rintro ⟨r, hr, he⟩
      rw [hp'] at he
      match r, hr with
      | a :: r2, _ =>
        simp only [List.cons_append, List.cons.injEq] at he
        exact hout ⟨m ++ i :: r2, by simp, by rw [hp, he.2]; simp⟩
    · simp only [Bool.not_eq_true] at hf
      subst hf
      obtain ⟨i, t, m, hp, hp', _, _⟩ := climb_backward_some root p p' hstep
      rintro ⟨r, hr, he⟩
      rw [hp'] at he
      match r, hr with
      | a :: r2, _ =>
        simp only [List.cons_append, List.cons.injEq] at he
        exact hout ⟨m ++ i :: r2, by simp, by rw [hp, he.2]; simp⟩
  · rw [hnext] at hstep
    simp only [Option.some_inj] at hstep
    have hpc : p' = c := hstep.symm
    have hchild : ∃ j, c = j :: p ∧ enterableAt root p = true := by
      by_cases he : enterableAt root p = true
      · rw [if_pos he] at hnext
        by_cases hf : forward = true
        · rw [if_pos hf] at hnext
          unfold firstChildPath at hnext
          by_cases hcc : 0 < childCount root p
          · rw [if_pos hcc] at hnext
            exact ⟨0, by simpa using hnext.symm, he⟩
          · rw [if_neg hcc] at hnext
            simp at hnext
        · rw [if_neg hf] at hnext
          simp only [lastChildPath] at hnext
          by_cases hcc : 0 < childCount root p
          · rw [if_pos hcc] at hnext
            exact ⟨childCount root p - 1, by simpa using hnext.symm, he⟩
          · rw [if_neg hcc] at hnext
            simp at hnext
      · rw [if_neg he] at hnext
        simp at hnext
    obtain ⟨j, hc, hent⟩ := hchild
    rintro ⟨r, hr, he⟩
    rw [hpc, hc] at he
    match r, hr with
    | a :: r2, _ =>
      simp only [List.cons_append, List.cons.injEq] at he
      rcases r2 with _ | ⟨b, r3⟩
      · simp only [List.nil_append] at he
        rw [← he.2] at hq
        rw [hent] at hq
        simp at hq
      · exact hout ⟨b :: r3, by simp, he.2⟩

/-- The `enterable` flag the seek loop computes in `seekStep` and passes to
`getNextNode` is exactly `enterableAt`. -/
theorem seekStep_enterable_eq (root : DomNode) (forward : Bool) (p lastNode : NodePath)
    (resetOffset : Bool) (s : DOMTextScanner) :
    (seekStep root forward p lastNode resetOffset s).2.2.1 = enterableAt root p := by
  unfold seekStep enterableAt
  match hq : nodeAt root p with
  | some (DomNode.text value) => by_cases hf : forward = true <;> simp [hf]
  | some (DomNode.element t st cs) => simp
  | none => simp

/-- C8: script, style, head and ruby-annotation-text elements are never
entered, in either scan direction.  First conjunct: for every computed style
such an element's seek info is `enterable = false` with `0` newlines (so it
contributes no newlines when visited or exited).  Second conjunct: traversal
steps never move from outside such an element's subtree to strictly inside it,
so none of its descendant text is ever reached (the starting position apart). -/
theorem nonenterable_never_entered :
    (∀ tagName, toUpperCase tagName ∈ (["HEAD", "RT", "SCRIPT", "STYLE"] : List String) →
      ∀ style, getElementSeekInfo tagName style = ⟨false, 0⟩) ∧
    (∀ root forward q p pnext tagName style children,
      nodeAt root q = some (DomNode.element tagName style children) →
      toUpperCase tagName ∈ (["HEAD", "RT", "SCRIPT", "STYLE"] : List String) →
      ¬ strictlyInside q p → stepNode root forward p = some pnext →
      ¬ strictlyInside q pnext) := by
  refine ⟨fun tagName h style => special_tags_not_enterable tagName h style, ?_⟩
  intro root forward q p pnext tagName style children hq htag hout hstep
  have henter : enterableAt root q = false := by
    unfold enterableAt
    rw [hq]
    simp [special_tags_not_enterable tagName htag style]
  exact stepNode_avoids_nonenterable root forward q p pnext henter hout hstep

/-- C8 witness: the seek info of a `<script>` element, and a concrete step in
`docScript` that reaches (but does not enter) the script element. -/
theorem nonenterable_never_entered_witness :
    getElementSeekInfo "SCRIPT" (visibleStyle "block") = ⟨false, 0⟩ ∧
    ¬ strictlyInside [0] [0] :=
  ⟨nonenterable_never_entered.1 "SCRIPT" (by decide) (visibleStyle "block"),
   nonenterable_never_entered.2 docScript true [0] [] [0] "SCRIPT" (visibleStyle "block")
     [DomNode.text "xyz".toList] rfl (by decide)
     (by rintro ⟨r, hr, he⟩; simp at he)
     (by decide)⟩

/-- Irreflexivity of the pre-order comparator. -/
theorem lexLtB_irrefl : ∀ l : List Nat, lexLtB l l = false := by
  intro l
  induction l with
  | nil => rfl
  | cons a as ih => simp [lexLtB, ih]

/-- Transitivity of the pre-order comparator. -/
theorem lexLtB_trans :
    ∀ a b c : List Nat, lexLtB a b = true → lexLtB b c = true → lexLtB a c = true := by
  intro a
  induction a with
  | nil =>
    intro b c hab hbc
    match b, c with
    | _, [] => simp [lexLtB] at hbc
    | _, _ :: _ => rfl
  | cons x xs ih =>
    intro b c hab hbc
    match b, c with
    | [], _ => simp [lexLtB] at hab
    | _ :: _, [] => simp [lexLtB] at hbc
    | y :: ys, z :: zs =>
      simp only [lexLtB] at hab hbc ⊢
      split_ifs at hab hbc ⊢ with h1 h2 h3 h4 h5 h6 <;> try rfl
      all_goals (try omega)
      all_goals (exact ih ys zs (by simp_all) (by simp_all))

/-- A list precedes any proper extension of itself in pre-order. -/
theorem lexLtB_append_cons : ∀ (l : List Nat) (k : Nat) (r : List Nat),
    lexLtB l (l ++ k :: r) = true := by
  intro l
  induction l with
  | nil => intro k r; rfl
  | cons a as ih => intro k r; simp [lexLtB, ih]

/-- Pre-order decides by the first differing index. -/
theorem lexLtB_middle : ∀ (l : List Nat) (i j : Nat) (r r2 : List Nat), i < j →
    lexLtB (l ++ i :: r) (l ++ j :: r2) = true := by
  intro l
  induction l with
  | nil => intro i j r r2 h; simp [lexLtB, h]
  | cons a as ih => intro i j r r2 h; simp [lexLtB, ih _ _ _ _ h]

/-- Irreflexivity of the post-order comparator. -/
theorem postLexLtB_irrefl : ∀ l : List Nat, postLexLtB l l = false := by
  intro l
  induction l with
  | nil => rfl
  | cons a as ih => simp [postLexLtB, ih]

/-- Transitivity of the post-order comparator. -/
theorem postLexLtB_trans :
    ∀ a b c : List Nat, postLexLtB a b = true → postLexLtB b c = true → postLexLtB a c = true := by
  intro a
  induction a with
  | nil =>
    intro b c hab hbc
    match b with
    | [] => simp [postLexLtB] at hab
    | _ :: _ => simp [postLexLtB] at hab
  | cons x xs ih =>
    intro b c hab hbc
    match b, c with
    | [], _ => simp [postLexLtB] at hbc
    | _ :: _, [] => rfl
    | y :: ys, z :: zs =>
      simp only [postLexLtB] at hab hbc ⊢
      split_ifs at hab hbc ⊢ with h1 h2 h3 h4 h5 h6 <;> try rfl
      all_goals (try omega)
      all_goals (exact ih ys zs (by simp_all) (by simp_all))

/-- A proper extension precedes the base list in post-order. -/
theorem postLexLtB_append_cons : ∀ (l : List Nat) (k : Nat) (r : List Nat),
    postLexLtB (l ++ k :: r) l = true := by
  intro l
  induction l with
  | nil => intro k r; rfl
  | cons a as ih => intro k r; simp [postLexLtB, ih]

/-- Post-order decides by the first differing index. -/
theorem postLexLtB_middle : ∀ (l : List Nat) (i j : Nat) (r r2 : List Nat), i < j →
    postLexLtB (l ++ i :: r) (l ++ j :: r2) = true := by
  intro l
  induction l with
  | nil => intro i j r r2 h; simp [postLexLtB, h]
  | cons a as ih => intro i j r r2 h; simp [postLexLtB, ih _ _ _ _ h]

/-- A child index below the child count is a valid position. -/
theorem childCount_some (root : DomNode) (t : NodePath) (j : Nat)
    (h : j < childCount root t) : (nodeAt root (j :: t)).isSome := by
  unfold childCount at h
  unfold nodeAt
  match hq : nodeAt root t with
  | some (DomNode.element tg st cs) =>
    rw [hq] at h
    simp [List.getElem?_eq_getElem h]
  | some (DomNode.text v) => rw [hq] at h; simp at h
  | none => rw [hq] at h; simp at h

/-- A forward traversal step moves to a strictly later position in document
pre-order, and that position is valid. -/
theorem getNextNode_forward_lt (root : DomNode) (p p' : NodePath) (vc : Bool)
    (h : (getNextNode root p true vc).1 = some p') :
    preLtB p p' = true ∧ (nodeAt root p').isSome := by
  unfold getNextNode at h
  rcases hnext : (if vc then (if true then firstChildPath root p else lastChildPath root p)
      else none) with _ | c
  · rw [hnext] at h
    simp only [] at h
    obtain ⟨i, t, m, hp, hp', hc⟩ := climb_forward_some root p p' h
    constructor
    · unfold preLtB
      rw [hp, hp']
      simp only [List.reverse_append, List.reverse_cons, List.append_assoc,
        List.singleton_append, List.nil_append]
      exact lexLtB_middle t.reverse i (i + 1) m.reverse [] (by omega)
    · rw [hp']
      exact childCount_some root t (i + 1) hc
  · rw [hnext] at h
    simp only [Option.some_inj] at h
    subst h
    have hcc : c = 0 :: p ∧ 0 < childCount root p := by
      by_cases hvc : vc = true
      · rw [if_pos hvc, if_pos rfl] at hnext
        unfold firstChildPath at hnext
        by_cases h0 : 0 < childCount root p
        · rw [if_pos h0] at hnext
          exact ⟨by simpa using hnext.symm, h0⟩
        · rw [if_neg h0] at hnext
          simp at hnext
      · rw [if_neg hvc] at hnext
        simp at hnext
    rw [hcc.1]
    constructor
    · unfold preLtB
      simp only [List.reverse_cons]
      have := lexLtB_append_cons p.reverse 0 []
      simpa using this
    · exact childCount_some root p 0 hcc.2

/-- A backward traversal step moves to a strictly earlier position in document
post-order, and that position is valid. -/
theorem getNextNode_backward_lt (root : DomNode) (p p' : NodePath) (vc : Bool)
    (h : (getNextNode root p false vc).1 = some p') :
    postLtB p' p = true ∧ (nodeAt root p').isSome := by
  unfold getNextNode at h
  rcases hnext : (if vc then (if false then firstChildPath root p else lastChildPath root p)
      else none) with _ | c
  · rw [hnext] at h
    simp only [] at h
    obtain ⟨i, t, m, hp, hp', hi, hc⟩ := climb_backward_some root p p' h
    constructor
    · unfold postLtB
      rw [hp, hp']
      simp only [List.reverse_append, List.reverse_cons, List.append_assoc,
        List.singleton_append, List.nil_append]
      exact postLexLtB_middle t.reverse (i - 1) i [] m.reverse (by omega)
    · rw [hp']
      exact childCount_some root t (i - 1) (by omega)
  · rw [hnext] at h
    simp only [Option.some_inj] at h
    subst h
    have hcc : c = (childCount root p - 1) :: p ∧ 0 < childCount root p := by
      by_cases hvc : vc = true
      · rw [if_pos hvc] at hnext
        simp only [Bool.false_eq_true, if_false, lastChildPath] at hnext
        by_cases h0 : 0 < childCount root p
        · rw [if_pos h0] at hnext
          exact ⟨by simpa using hnext.symm, h0⟩
        · rw [if_neg h0] at hnext
          simp at hnext
      · rw [if_neg hvc] at hnext
        simp at hnext
    rw [hcc.1]
    constructor
    · unfold postLtB
      simp only [List.reverse_cons]
      have := postLexLtB_append_cons p.reverse (childCount root p - 1) []
      simpa using this
    · exact childCount_some root p (childCount root p - 1) (by omega)

/-- Resolving a concatenated path resolves the outer (right) part first. -/
theorem nodeAt_append (root : DomNode) :
    ∀ (r p : NodePath), nodeAt root (r ++ p) =
      (nodeAt root p).bind (fun n => nodeAt n r) := by
  intro r
  induction r with
  | nil =>
    intro p
    match h : nodeAt root p with
    | some n => simp [nodeAt, h]
    | none => simp [nodeAt, h]
  | cons i r2 ih =>
    intro p
    have hL : nodeAt root ((i :: r2) ++ p) =
        (match nodeAt root (r2 ++ p) with
         | some (DomNode.element _ _ children) => children[i]?
         | _ => none) := rfl
    rw [hL, ih p]
    match h : nodeAt root p with
    | some n => rfl
    | none => rfl

/-- Structural induction over document trees with a hypothesis for every
child of an element. -/
theorem domNode_ind {motive : DomNode → Prop}
    (ht : ∀ v, motive (DomNode.text v))
    (he : ∀ t st cs, (∀ c ∈ cs, motive c) → motive (DomNode.element t st cs)) :
    ∀ n, motive n
  | DomNode.text v => ht v
  | DomNode.element t st cs =>
    he t st cs (fun c _hcmem => domNode_ind ht he c)
termination_by n => sizeOf n
decreasing_by
  have := List.sizeOf_lt_of_mem _hcmem
  simp [DomNode.element.sizeOf_spec]
  omega

/-- The subtree position list always contains the subtree's own position. -/
theorem self_mem_pathsOfNode (n : DomNode) (p : NodePath) : p ∈ pathsOfNode n p := by
  match n with
  | DomNode.text v => simp [pathsOfNode]
  | DomNode.element t st cs => simp [pathsOfNode]

/-- Positions in the subtree of child `j` (counting from `k`) are positions
under the children list. -/
theorem mem_pathsOfChildren (x : NodePath) :
    ∀ (cs : List DomNode) (k j : Nat) (p : NodePath) (c : DomNode),
      cs[j]? = some c → x ∈ pathsOfNode c ((k + j) :: p) → x ∈ pathsOfChildren cs k p := by
  intro cs
  induction cs with
  | nil => intro k j p c h; simp at h
  | cons c0 cs2 ih =>
    intro k j p c h hx
    match j with
    | 0 =>
      simp only [List.getElem?_cons_zero, Option.some_inj] at h
      subst h
      simp only [pathsOfChildren, List.mem_append]
      exact Or.inl (by simpa using hx)
    | j2 + 1 =>
      simp only [List.getElem?_cons_succ] at h
      simp only [pathsOfChildren, List.mem_append]
      refine Or.inr (ih (k + 1) j2 p c h ?_)
      have : k + 1 + j2 = k + (j2 + 1) := by omega
      rw [this]
      exact hx

/-- A text root resolves only the empty position. -/
theorem nodeAt_text (v : List Char) :
    ∀ q m, nodeAt (DomNode.text v) q = some m → q = [] ∧ m = DomNode.text v := by
  intro q
  induction q with
  | nil => intro m h; simp only [nodeAt, Option.some_inj] at h; exact ⟨rfl, h.symm⟩
  | cons a as ih =>
    intro m h
    unfold nodeAt at h
    match hq : nodeAt (DomNode.text v) as with
    | some (DomNode.element t2 st2 cs2) =>
      exfalso
      obtain ⟨_, hm⟩ := ih _ hq
      exact DomNode.noConfusion hm
    | some (DomNode.text v2) => rw [hq] at h; simp at h
    | none => rw [hq] at h; simp at h

/-- Every valid position belongs to the subtree position list. -/
theorem valid_mem_pathsOfNode :
    ∀ (n : DomNode) (r base : NodePath), (nodeAt n r).isSome →
      (r ++ base) ∈ pathsOfNode n base := by
  intro n
  induction n using domNode_ind with
  | ht v =>
    intro r base h
    match r with
    | [] => simp [pathsOfNode]
    | i :: q =>
      exfalso
      unfold nodeAt at h
      match hq : nodeAt (DomNode.text v) q with
      | some (DomNode.text v2) => rw [hq] at h; simp at h
      | some (DomNode.element t st cs) =>
        obtain ⟨_, hm⟩ := nodeAt_text v q _ hq
        exact DomNode.noConfusion hm
      | none => rw [hq] at h; simp at h
  | he t st cs ihc =>
    intro r base h
    rcases List.eq_nil_or_concat r with hr | ⟨r2, j, hr⟩
    · subst hr
      simpa using self_mem_pathsOfNode _ base
    · subst hr
      rw [List.concat_eq_append] at h ⊢
      rw [nodeAt_append] at h
      match hj : nodeAt (DomNode.element t st cs) [j] with
      | none => rw [hj] at h; simp at h
      | some cj =>
        rw [hj] at h
        have h2 : (nodeAt cj r2).isSome := h
        have hcj : cs[j]? = some cj := hj
        have hmem : cj ∈ cs := List.getElem?_mem hcj
        have hx := ihc cj hmem r2 (j :: base) h2
        have hx2 : (r2 ++ [j]) ++ base ∈ pathsOfNode cj (j :: base) := by
          simpa [List.append_assoc] using hx
        unfold pathsOfNode
        simp only [List.mem_cons]
        exact Or.inr (mem_pathsOfChildren _ cs 0 j base cj hcj (by simpa using hx2))

/-- Every valid position of the document is in its position list. -/
theorem valid_mem_pathsOf (root : DomNode) (p : NodePath)
    (h : (nodeAt root p).isSome) : p ∈ pathsOf root := by
  have := valid_mem_pathsOfNode root p [] h
  simpa using this

/-- Counting lemma: if `x` is kept by `P` but dropped by `Q`, and `Q` implies
`P`, then `Q` keeps strictly fewer elements of any list containing `x`. -/
theorem filter_count_lt {l : List NodePath} {P Q : NodePath → Bool} {x : NodePath}
    (hmem : x ∈ l) (hPx : P x = true) (hQx : Q x = false)
    (himp : ∀ y, Q y = true → P y = true) :
    (l.filter Q).length < (l.filter P).length := by
  obtain ⟨l1, l2, rfl⟩ := List.mem_iff_append.mp hmem
  have h1 : ∀ (m : List NodePath), (m.filter Q).length ≤ (m.filter P).length := by
    intro m
    induction m with
    | nil => simp
    | cons a as ih =>
      by_cases hq : Q a = true
      · simp only [List.filter_cons, hq, if_true, himp a hq, List.length_cons]
        omega
      · have hq2 : Q a = false := by simpa using hq
        simp only [List.filter_cons, hq2, Bool.false_eq_true, if_false]
        by_cases hp : P a = true
        · simp only [hp, if_true, List.length_cons]
          omega
        · have hp2 : P a = false := by simpa using hp
          simp only [hp2, Bool.false_eq_true, if_false]
          exact ih
  have ha := h1 l1
  have hb := h1 l2
  simp only [List.filter_append, List.filter_cons, hPx, hQx, if_true,
    Bool.false_eq_true, if_false, List.length_append, List.length_cons]
  omega

/-- Each traversal step strictly decreases the number of valid positions still
ahead in the direction of travel. -/
theorem seekMeasure_decreases (root : DomNode) (forward : Bool) (p p' : NodePath)
    (vc : Bool) (h : (getNextNode root p forward vc).1 = some p') :
    seekMeasure root forward p' < seekMeasure root forward p := by
  by_cases hf : forward = true
  · subst hf
    obtain ⟨hlt, hvalid⟩ := getNextNode_forward_lt root p p' vc h
    unfold seekMeasure
    simp only [if_true]
    exact filter_count_lt (valid_mem_pathsOf root p' hvalid) hlt
      (by unfold preLtB; exact lexLtB_irrefl _)
      (fun y hy => lexLtB_trans _ _ _ hlt hy)
  · simp only [Bool.not_eq_true] at hf
    subst hf
    obtain ⟨hlt, hvalid⟩ := getNextNode_backward_lt root p p' vc h
    unfold seekMeasure
    simp only [Bool.false_eq_true, if_false]
    exact filter_count_lt (valid_mem_pathsOf root p' hvalid) hlt
      (by unfold postLtB; exact postLexLtB_irrefl _)
      (fun y hy => postLexLtB_trans _ _ _ hy hlt)

/-- With more fuel than the number of valid positions still ahead, the seek
loop reaches one of its natural exits (a break or tree exhaustion) rather than
running out of fuel. -/
theorem seekLoop_isSome (root : DomNode) (forward : Bool) :
    ∀ fuel onode lastNode ro s,
      (match onode with
       | none => 0
       | some p => 1 + seekMeasure root forward p) < fuel →
      (seekLoop root forward fuel onode lastNode ro s).isSome := by
  intro fuel
  induction fuel with
  | zero => intro onode _ _ _ h; omega
  | succ n ih =>
    intro onode lastNode ro s h
    match onode with
    | none => simp [seekLoop]
    | some p =>
      simp only [] at h
      simp only [seekLoop]
      by_cases hbrk : (seekStep root forward p lastNode ro s).2.2.2 = true
      · simp [hbrk]
      · simp only [Bool.not_eq_true] at hbrk
        simp only [hbrk, Bool.false_eq_true, if_false]
        apply ih
        rcases hnx : (getNextNode root p forward
            (seekStep root forward p lastNode ro s).2.2.1).1 with _ | p2
        · show 0 < n
          omega
        · show 1 + seekMeasure root forward p2 < n
          have hdec := seekMeasure_decreases root forward p p2 _ hnx
          omega

/-- The fuel `seek` supplies (`nodeCount root + 1`) always suffices from a
valid starting position: the loop reaches a natural exit. -/
theorem seekLoop_fuel_sufficient (root : DomNode) (forward : Bool) (p lastNode : NodePath)
    (ro : Bool) (s : DOMTextScanner) (hvalid : (nodeAt root p).isSome) :
    (seekLoop root forward (nodeCount root + 1) (some p) lastNode ro s).isSome := by
  apply seekLoop_isSome
  simp only []
  have hmem : p ∈ pathsOf root := valid_mem_pathsOf root p hvalid
  have key : ∀ (R : NodePath → Bool), R p = false →
      ((pathsOf root).filter R).length < (pathsOf root).length := by
    intro R hR
    have h2 := filter_count_lt (P := fun _ => true) (Q := R) hmem rfl hR (fun y _ => rfl)
    simpa [List.filter_true] using h2
  have hlt : seekMeasure root forward p < (pathsOf root).length := by
    unfold seekMeasure
    by_cases hf : forward = true
    · simp only [hf, if_true]
      exact key _ (by unfold preLtB; exact lexLtB_irrefl _)
    · simp only [hf, Bool.false_eq_true, if_false]
      exact key _ (by unfold postLtB; exact postLexLtB_irrefl _)
  unfold nodeCount
  omega

/-- C9: `seek` terminates on every finite document.  The traversal loop, which
advances via `getNextNode`, strictly decreases the number of valid positions
ahead in the travel direction, so it visits each node at most once; with the
fuel `nodeCount root + 1` that `seek` supplies, the loop always reaches a
natural exit — remainder reaching 0 (a break) or tree exhaustion — and never
returns the out-of-fuel marker. -/
theorem seekLoop_terminates (root : DomNode) (forward : Bool) (p lastNode : NodePath)
    (ro : Bool) (s : DOMTextScanner) (hvalid : (nodeAt root p).isSome) :
    (seekLoop root forward (nodeCount root + 1) (some p) lastNode ro s).isSome :=
  seekLoop_fuel_sufficient root forward p lastNode ro s hvalid

/-- C9 witness: the seek loop completes on `docScript` starting from the text
inside the script element, with the fuel `seek` supplies. -/
theorem seekLoop_terminates_witness :
    (seekLoop docScript true (nodeCount docScript + 1) (some [0, 0]) [0, 0] false
      (mkDOMTextScanner docScript [0, 0] 0 false true)).isSome :=
  seekLoop_terminates docScript true [0, 0] [0, 0] false
    (mkDOMTextScanner docScript [0, 0] 0 false true) (by decide)


/-- Lockstep step: when the forward character machine does not stop, running it
with a remainder enlarged by `d` takes the same branch, produces the same
content and bookkeeping, keeps the enlarged remainder, and still does not
stop. -/
theorem checkCharacterForward_bump (s : DOMTextScanner) (c : Char) (a : Nat) (d : Nat)
    (h : (checkCharacterForward s c a).2 = false) :
    checkCharacterForward { s with remainder := s.remainder + d } c a =
      ({ (checkCharacterForward s c a).1 with
         remainder := (checkCharacterForward s c a).1.remainder + d }, false) := by
  by_cases h1 : a = 1
  · simp [checkCharacterForward, h1]
  · by_cases h23 : a = 2 ∨ a = 3
    · by_cases hA : 0 < s.newlines
      · by_cases hB : 0 < s.content.length
        · by_cases hG : s.remainder - min s.remainder s.newlines = 0
          · exfalso
            simp [checkCharacterForward, h1, h23, hA, hB, hG] at h
          · have hmin1 : min s.remainder s.newlines = s.newlines := by omega
            have hmin2 : min (s.remainder + d) s.newlines = s.newlines := by omega
            have hGa : ¬(s.remainder - s.newlines = 0) := by omega
            have hGb : ¬(s.remainder + d - s.newlines = 0) := by omega
            simp [checkCharacterForward, h1, h23, hA, hB, hGa, hmin1] at h
            have hEb : ¬(s.remainder + d - s.newlines - 1 = 0) := by omega
            have hrem : s.remainder + d - s.newlines - 1 = s.remainder - s.newlines - 1 + d := by
              omega
            simp [checkCharacterForward, h1, h23, hA, hB, hGa, hGb, hmin1, hmin2, hEb, hrem]
            omega
        · by_cases hR0 : s.remainder = 0
          · exfalso
            simp [checkCharacterForward, h1, h23, hA, hB, hR0] at h
          · have hR2 : ¬(s.remainder + d = 0) := by omega
            simp [checkCharacterForward, h1, h23, hA, hB, hR0] at h
            have hE2 : ¬(s.remainder + d - 1 = 0) := by omega
            have hrem : s.remainder + d - 1 = s.remainder - 1 + d := by omega
            simp [checkCharacterForward, h1, h23, hA, hB, hR0, hR2, hE2, hrem]
            omega
      · by_cases hW : s.lineHasWhitespace = true
        · by_cases h2 : a = 2
          · by_cases hRC : s.remainder - 1 = 0
            · exfalso
              simp [checkCharacterForward, h1, h23, hA, hW, h2, hRC] at h
            · have hRC2 : ¬(s.remainder + d - 1 = 0) := by omega
              simp [checkCharacterForward, h1, h23, hA, hW, h2, hRC, hRC2] at h ⊢
              try omega
          · have h3 : a = 3 := h23.resolve_left h2
            simp [checkCharacterForward, h1, h3, hA, hW, h2] at h
            have hE2 : ¬(s.remainder + d - 1 = 0) := by omega
            have hrem : s.remainder + d - 1 = s.remainder - 1 + d := by omega
            simp [checkCharacterForward, h1, h3, hA, hW, h2, h, hE2, hrem]
        · have hW2 : s.lineHasWhitespace = false := by simpa using hW
          simp [checkCharacterForward, h1, h23, hA, hW2] at h ⊢
          try omega
    · simp [checkCharacterForward, h1, h23]

/-- Lockstep step: when the backward character machine does not stop, running it
with a remainder enlarged by `d` takes the same branch, produces the same
content and bookkeeping, keeps the enlarged remainder, and still does not
stop. -/
theorem checkCharacterBackward_bump (s : DOMTextScanner) (c : Char) (a : Nat) (d : Nat)
    (h : (checkCharacterBackward s c a).2 = false) :
    checkCharacterBackward { s with remainder := s.remainder + d } c a =
      ({ (checkCharacterBackward s c a).1 with
         remainder := (checkCharacterBackward s c a).1.remainder + d }, false) := by
  by_cases h1 : a = 1
  · simp [checkCharacterBackward, h1]
  · by_cases h23 : a = 2 ∨ a = 3
    · by_cases hA : 0 < s.newlines
      · by_cases hB : 0 < s.content.length
        · by_cases hG : s.remainder - min s.remainder s.newlines = 0
          · exfalso
            simp [checkCharacterBackward, h1, h23, hA, hB, hG] at h
          · have hmin1 : min s.remainder s.newlines = s.newlines := by omega
            have hmin2 : min (s.remainder + d) s.newlines = s.newlines := by omega
            have hGa : ¬(s.remainder - s.newlines = 0) := by omega
            have hGb : ¬(s.remainder + d - s.newlines = 0) := by omega
            simp [checkCharacterBackward, h1, h23, hA, hB, hGa, hmin1] at h
            have hEb : ¬(s.remainder + d - s.newlines - 1 = 0) := by omega
            have hrem : s.remainder + d - s.newlines - 1 = s.remainder - s.newlines - 1 + d := by
              omega
            simp [checkCharacterBackward, h1, h23, hA, hB, hGa, hGb, hmin1, hmin2, hEb, hrem]
            omega
        · by_cases hR0 : s.remainder = 0
          · exfalso
            simp [checkCharacterBackward, h1, h23, hA, hB, hR0] at h
          · have hR2 : ¬(s.remainder + d = 0) := by omega
            simp [checkCharacterBackward, h1, h23, hA, hB, hR0] at h
            have hE2 : ¬(s.remainder + d - 1 = 0) := by omega
            have hrem : s.remainder + d - 1 = s.remainder - 1 + d := by omega
            simp [checkCharacterBackward, h1, h23, hA, hB, hR0, hR2, hE2, hrem]
            omega
      · by_cases hW : s.lineHasWhitespace = true
        · by_cases h2 : a = 2
          · by_cases hRC : s.remainder - 1 = 0
            · exfalso
              simp [checkCharacterBackward, h1, h23, hA, hW, h2, hRC] at h
            · have hRC2 : ¬(s.remainder + d - 1 = 0) := by omega
              simp [checkCharacterBackward, h1, h23, hA, hW, h2, hRC, hRC2] at h ⊢
              try omega
          · have h3 : a = 3 := h23.resolve_left h2
            simp [checkCharacterBackward, h1, h3, hA, hW, h2] at h
            have hE2 : ¬(s.remainder + d - 1 = 0) := by omega
            have hrem : s.remainder + d - 1 = s.remainder - 1 + d := by omega
            simp [checkCharacterBackward, h1, h3, hA, hW, h2, h, hE2, hrem]
        · have hW2 : s.lineHasWhitespace = false := by simpa using hW
          simp [checkCharacterBackward, h1, h23, hA, hW2] at h ⊢
          try omega
    · simp [checkCharacterBackward, h1, h23]

set_option maxHeartbeats 1000000 in
/-- When the forward character machine signals a stop, the remainder is 0. -/
theorem checkCharacterForward_break_remainder (s : DOMTextScanner) (c : Char) (a : Nat)
    (h : (checkCharacterForward s c a).2 = true) :
    (checkCharacterForward s c a).1.remainder = 0 := by
  simp only [checkCharacterForward] at h ⊢
  split_ifs at h ⊢ <;> simp_all

set_option maxHeartbeats 1000000 in
/-- When the backward character machine signals a stop, the remainder is 0. -/
theorem checkCharacterBackward_break_remainder (s : DOMTextScanner) (c : Char) (a : Nat)
    (h : (checkCharacterBackward s c a).2 = true) :
    (checkCharacterBackward s c a).1.remainder = 0 := by
  simp only [checkCharacterBackward] at h ⊢
  split_ifs at h ⊢ <;> simp_all

/-- Lockstep for the forward character loop: if the loop ends with a positive
remainder (it was never cut short by the length), enlarging the remainder
only enlarges the final remainder by the same amount. -/
theorem seekTextNodeForwardLoop_bump (value : List Char) (pn pw : Bool) :
    ∀ fuel s d, 1 ≤ (seekTextNodeForwardLoop value pn pw fuel s).remainder →
      seekTextNodeForwardLoop value pn pw fuel { s with remainder := s.remainder + d } =
        { seekTextNodeForwardLoop value pn pw fuel s with
          remainder := (seekTextNodeForwardLoop value pn pw fuel s).remainder + d } := by
  intro fuel
  induction fuel with
  | zero => intro s d _; simp [seekTextNodeForwardLoop]
  | succ n ih =>
    intro s d hrem
    simp only [seekTextNodeForwardLoop] at hrem ⊢
    by_cases hlt : s.offset < value.length
    · simp only [hlt, if_true] at hrem ⊢
      match hv : value[s.offset]? with
      | none => simp
      | some char =>
        rw [hv] at hrem
        simp only [] at hrem ⊢
        by_cases hbrk :
            (checkCharacterForward { s with offset := s.offset + 1 } char
              (getCharacterAttributes char pn pw)).2 = true
        · exfalso
          rw [if_pos hbrk] at hrem
          have := checkCharacterForward_break_remainder _ _ _ hbrk
          omega
        · have hbrk2 : (checkCharacterForward { s with offset := s.offset + 1 } char
              (getCharacterAttributes char pn pw)).2 = false := by simpa using hbrk
          rw [if_neg hbrk] at hrem
          have hstep := checkCharacterForward_bump { s with offset := s.offset + 1 } char
            (getCharacterAttributes char pn pw) d hbrk2
          have hcomm : ({ s with remainder := s.remainder + d, offset := s.offset + 1 }
              : DOMTextScanner) =
              { ({ s with offset := s.offset + 1 } : DOMTextScanner) with
                remainder := ({ s with offset := s.offset + 1 } : DOMTextScanner).remainder + d } := rfl
          rw [hcomm, hstep]
          simp only [Bool.false_eq_true, if_false, hbrk2]
          exact ih _ d hrem
    · simp [hlt]

/-- Lockstep for the backward character loop. -/
theorem seekTextNodeBackwardLoop_bump (value : List Char) (pn pw : Bool) :
    ∀ fuel s d, 1 ≤ (seekTextNodeBackwardLoop value pn pw fuel s).remainder →
      seekTextNodeBackwardLoop value pn pw fuel { s with remainder := s.remainder + d } =
        { seekTextNodeBackwardLoop value pn pw fuel s with
          remainder := (seekTextNodeBackwardLoop value pn pw fuel s).remainder + d } := by
  intro fuel
  induction fuel with
  | zero => intro s d _; simp [seekTextNodeBackwardLoop]
  | succ n ih =>
    intro s d hrem
    simp only [seekTextNodeBackwardLoop] at hrem ⊢
    by_cases hlt : 0 < s.offset
    · simp only [hlt, if_true] at hrem ⊢
      match hv : value[s.offset - 1]? with
      | none => simp
      | some char =>
        rw [hv] at hrem
        simp only [] at hrem ⊢
        by_cases hbrk :
            (checkCharacterBackward { s with offset := s.offset - 1 } char
              (getCharacterAttributes char pn pw)).2 = true
        · exfalso
          rw [if_pos hbrk] at hrem
          have := checkCharacterBackward_break_remainder _ _ _ hbrk
          omega
        · have hbrk2 : (checkCharacterBackward { s with offset := s.offset - 1 } char
              (getCharacterAttributes char pn pw)).2 = false := by simpa using hbrk
          rw [if_neg hbrk] at hrem
          have hstep := checkCharacterBackward_bump { s with offset := s.offset - 1 } char
            (getCharacterAttributes char pn pw) d hbrk2
          have hcomm : ({ s with remainder := s.remainder + d, offset := s.offset - 1 }
              : DOMTextScanner) =
              { ({ s with offset := s.offset - 1 } : DOMTextScanner) with
                remainder := ({ s with offset := s.offset - 1 } : DOMTextScanner).remainder + d } := rfl
          rw [hcomm, hstep]
          simp only [Bool.false_eq_true, if_false, hbrk2]
          exact ih _ d hrem
    · simp [hlt]

/-- Lockstep for `_seekTextNodeForward`: when the scan of the node ends with a
positive remainder, an enlarged remainder gives the same result with the
enlarged remainder, still signalling "continue". -/
theorem seekTextNodeForward_bump (root : DomNode) (p : NodePath) (value : List Char)
    (resetOffset : Bool) (s : DOMTextScanner) (d : Nat)
    (hrem : 1 ≤ (seekTextNodeForward root p value resetOffset s).1.remainder) :
    seekTextNodeForward root p value resetOffset { s with remainder := s.remainder + d } =
      ({ (seekTextNodeForward root p value resetOffset s).1 with
         remainder := (seekTextNodeForward root p value resetOffset s).1.remainder + d },
       true) := by
  simp only [seekTextNodeForward] at hrem ⊢
  by_cases hro : resetOffset = true
  · simp only [hro, if_true] at hrem ⊢
    have hcomm : ({ s with remainder := s.remainder + d, offset := 0 } : DOMTextScanner) =
        { ({ s with offset := 0 } : DOMTextScanner) with
          remainder := ({ s with offset := 0 } : DOMTextScanner).remainder + d } := rfl
    rw [hcomm, seekTextNodeForwardLoop_bump value _ _ _ _ d (by simpa using hrem)]
    simp
    omega
  · simp only [Bool.not_eq_true] at hro
    simp only [hro, Bool.false_eq_true, if_false] at hrem ⊢
    rw [show ({ s with remainder := s.remainder + d } : DOMTextScanner) =
        { s with remainder := s.remainder + d } from rfl,
      seekTextNodeForwardLoop_bump value _ _ _ s d hrem]
    simp
    omega

/-- Lockstep for `_seekTextNodeBackward`. -/
theorem seekTextNodeBackward_bump (root : DomNode) (p : NodePath) (value : List Char)
    (resetOffset : Bool) (s : DOMTextScanner) (d : Nat)
    (hrem : 1 ≤ (seekTextNodeBackward root p value resetOffset s).1.remainder) :
    seekTextNodeBackward root p value resetOffset { s with remainder := s.remainder + d } =
      ({ (seekTextNodeBackward root p value resetOffset s).1 with
         remainder := (seekTextNodeBackward root p value resetOffset s).1.remainder + d },
       true) := by
  simp only [seekTextNodeBackward] at hrem ⊢
  by_cases hro : resetOffset = true
  · simp only [hro, if_true] at hrem ⊢
    have hcomm : ({ s with remainder := s.remainder + d, offset := value.length }
        : DOMTextScanner) =
        { ({ s with offset := value.length } : DOMTextScanner) with
          remainder := ({ s with offset := value.length } : DOMTextScanner).remainder + d } := rfl
    rw [hcomm, seekTextNodeBackwardLoop_bump value _ _ _ _ d (by simpa using hrem)]
    simp
    omega
  · simp only [Bool.not_eq_true] at hro
    simp only [hro, Bool.false_eq_true, if_false] at hrem ⊢
    rw [seekTextNodeBackwardLoop_bump value _ _ _ s d hrem]
    simp
    omega

/-- The continue flag of the forward text scan is "remainder still positive". -/
theorem seekTextNodeForward_cont_iff (root : DomNode) (p : NodePath) (value : List Char)
    (resetOffset : Bool) (s : DOMTextScanner) :
    (seekTextNodeForward root p value resetOffset s).2 =
      decide (0 < (seekTextNodeForward root p value resetOffset s).1.remainder) := rfl

/-- The continue flag of the backward text scan is "remainder still positive". -/
theorem seekTextNodeBackward_cont_iff (root : DomNode) (p : NodePath) (value : List Char)
    (resetOffset : Bool) (s : DOMTextScanner) :
    (seekTextNodeBackward root p value resetOffset s).2 =
      decide (0 < (seekTextNodeBackward root p value resetOffset s).1.remainder) := rfl

/-- A step that signals a break leaves remainder 0 (breaks come only from the
text branch, whose continue flag is "remainder positive"). -/
theorem seekStep_break_remainder (root : DomNode) (forward : Bool) (p lastNode : NodePath)
    (resetOffset : Bool) (s : DOMTextScanner)
    (h : (seekStep root forward p lastNode resetOffset s).2.2.2 = true) :
    (seekStep root forward p lastNode resetOffset s).1.remainder = 0 := by
  match hq : nodeAt root p with
  | some (DomNode.text value) =>
    simp only [seekStep, hq] at h ⊢
    by_cases hf : forward = true
    · simp only [hf, if_true] at h ⊢
      have h2 : (seekTextNodeForward root p value resetOffset s).2 = false := by simpa using h
      rw [seekTextNodeForward_cont_iff] at h2
      simp at h2
      omega
    · simp only [Bool.not_eq_true] at hf
      simp only [hf, Bool.false_eq_true, if_false] at h ⊢
      have h2 : (seekTextNodeBackward root p value resetOffset s).2 = false := by simpa using h
      rw [seekTextNodeBackward_cont_iff] at h2
      simp at h2
      omega
  | some (DomNode.element t st cs) => simp [seekStep, hq] at h
  | none => simp [seekStep, hq] at h

/-- Lockstep for one loop step: when the step does not break, enlarging the
remainder by `d` yields the same node processing with the remainder enlarged,
the same last node, the same enterable flag, and still no break. -/
theorem seekStep_bump (root : DomNode) (forward : Bool) (p lastNode : NodePath)
    (resetOffset : Bool) (s : DOMTextScanner) (d : Nat)
    (h : (seekStep root forward p lastNode resetOffset s).2.2.2 = false) :
    seekStep root forward p lastNode resetOffset { s with remainder := s.remainder + d } =
      ({ (seekStep root forward p lastNode resetOffset s).1 with
         remainder := (seekStep root forward p lastNode resetOffset s).1.remainder + d },
       (seekStep root forward p lastNode resetOffset s).2.1,
       (seekStep root forward p lastNode resetOffset s).2.2.1, false) := by
  match hq : nodeAt root p with
  | some (DomNode.text value) =>
    simp only [seekStep, hq] at h ⊢
    by_cases hf : forward = true
    · simp only [hf, if_true] at h ⊢
      have hcont : (seekTextNodeForward root p value resetOffset s).2 = true := by
        simpa using h
      have hrem : 1 ≤ (seekTextNodeForward root p value resetOffset s).1.remainder := by
        have h2 := hcont
        rw [seekTextNodeForward_cont_iff] at h2
        simp at h2
        omega
      rw [seekTextNodeForward_bump root p value resetOffset s d hrem]
      simp [hcont]
    · simp only [Bool.not_eq_true] at hf
      simp only [hf, Bool.false_eq_true, if_false] at h ⊢
      have hcont : (seekTextNodeBackward root p value resetOffset s).2 = true := by
        simpa using h
      have hrem : 1 ≤ (seekTextNodeBackward root p value resetOffset s).1.remainder := by
        have h2 := hcont
        rw [seekTextNodeBackward_cont_iff] at h2
        simp at h2
        omega
      rw [seekTextNodeBackward_bump root p value resetOffset s d hrem]
      simp [hcont]
  | some (DomNode.element t st cs) =>
    simp only [seekStep, hq]
    by_cases hcond : s.newlines < (getElementSeekInfo t st).newlines ∧
        s.generateLayoutContent = true
    · have hb : (decide (s.newlines < (getElementSeekInfo t st).newlines) &&
          s.generateLayoutContent) = true := by simp [hcond.1, hcond.2]
      simp [hb]
    · have hb : (decide (s.newlines < (getElementSeekInfo t st).newlines) &&
          s.generateLayoutContent) = false := by
        rcases Decidable.not_and_iff_or_not.mp hcond with h2 | h2 <;> simp_all
      simp [hb]
  | none => simp [seekStep, hq]

/-- `processExited` commutes with enlarging the remainder. -/
theorem processExited_bump (root : DomNode) :
    ∀ l s d, processExited root { s with remainder := s.remainder + d } l =
      { processExited root s l with remainder := (processExited root s l).remainder + d } := by
  intro l
  induction l with
  | nil => intro s d; simp [processExited]
  | cons q rest ih =>
    intro s d
    simp only [processExited]
    match hq : nodeAt root q with
    | some (DomNode.text v) => exact ih s d
    | some (DomNode.element t st cs) =>
      by_cases hcond : s.newlines < (getElementSeekInfo t st).newlines ∧
          s.generateLayoutContent = true
      · have hb : (decide (s.newlines < (getElementSeekInfo t st).newlines) &&
            s.generateLayoutContent) = true := by simp [hcond.1, hcond.2]
        simp only [hb, if_true]
        exact ih { s with newlines := (getElementSeekInfo t st).newlines } d
      · have hb : (decide (s.newlines < (getElementSeekInfo t st).newlines) &&
            s.generateLayoutContent) = false := by
          rcases Decidable.not_and_iff_or_not.mp hcond with h2 | h2 <;> simp_all
        simp only [hb, Bool.false_eq_true, if_false]
        exact ih s d
    | none => exact ih s d
/-- Lockstep for the whole loop: when every possible outcome keeps the
remainder positive, enlarging the initial remainder by `d` produces the same
run with the final remainder enlarged by `d` (and `none` stays `none`). -/
theorem seekLoop_bump (root : DomNode) (forward : Bool) :
    ∀ (fuel : Nat) (onode : Option NodePath) (lastNode : NodePath) (ro : Bool)
      (s : DOMTextScanner) (d : Nat),
      (∀ out, seekLoop root forward fuel onode lastNode ro s = some out →
        1 ≤ out.1.remainder) →
      seekLoop root forward fuel onode lastNode ro { s with remainder := s.remainder + d } =
        (seekLoop root forward fuel onode lastNode ro s).map
          (fun out => ({ out.1 with remainder := out.1.remainder + d }, out.2)) := by
  intro fuel
  induction fuel with
  | zero => intro onode lastNode ro s d _; simp [seekLoop]
  | succ fuel ih =>
    intro onode lastNode ro s d h
    match onode with
    | none => simp [seekLoop]
    | some p =>
      by_cases hb : (seekStep root forward p lastNode ro s).2.2.2 = true
      · exfalso
        have h0 := seekStep_break_remainder root forward p lastNode ro s hb
        have h1 := h ((seekStep root forward p lastNode ro s).1,
          (seekStep root forward p lastNode ro s).2.1, ro) (by simp [seekLoop, hb])
        simp at h1
        omega
      · have hb' : (seekStep root forward p lastNode ro s).2.2.2 = false := by
          simpa using hb
        have hstep := seekStep_bump root forward p lastNode ro s d hb'
        conv_lhs => rw [seekLoop]
        rw [hstep]
        simp only [if_false, Bool.false_eq_true]
        conv_rhs => rw [seekLoop]
        rw [hb']
        simp only [if_false, Bool.false_eq_true]
        rw [processExited_bump]
        exact ih _ _ _ _ d (fun out hout => h out (by
          rw [seekLoop, hb']
          simpa using hout))
/-- The last-node component the loop returns is the last node of the visited
trace (or the incoming last node when the trace is empty). -/
theorem seekLoop_lastNode_visited (root : DomNode) (forward : Bool) :
    ∀ (fuel : Nat) (onode : Option NodePath) (lastNode : NodePath) (ro : Bool)
      (s : DOMTextScanner) (out : DOMTextScanner × NodePath × Bool),
      seekLoop root forward fuel onode lastNode ro s = some out →
      out.2.1 = (seekLoopVisited root forward fuel onode lastNode ro s).getLastD lastNode := by
  intro fuel
  induction fuel with
  | zero => intro onode lastNode ro s out h; simp [seekLoop] at h
  | succ fuel ih =>
    intro onode lastNode ro s out h
    match onode with
    | none =>
      simp only [seekLoop, Option.some.injEq] at h
      simp [seekLoopVisited, ← h]
    | some p =>
      by_cases hb : (seekStep root forward p lastNode ro s).2.2.2 = true
      · simp only [seekLoop, hb, if_true, Option.some.injEq] at h
        simp only [seekLoopVisited, hb, if_true]
        match hq : nodeAt root p with
        | some (DomNode.text value) =>
          have hl : (seekStep root forward p lastNode ro s).2.1 = p := by
            simp [seekStep, hq]
          rw [hl] at h
          simp [← h]
        | some (DomNode.element t st cs) =>
          exfalso
          simp [seekStep, hq] at hb
        | none =>
          exfalso
          simp [seekStep, hq] at hb
      · have hb' : (seekStep root forward p lastNode ro s).2.2.2 = false := by
          simpa using hb
        simp only [seekLoop, hb', Bool.false_eq_true, if_false] at h
        simp only [seekLoopVisited, hb', Bool.false_eq_true, if_false]
        have hrec := ih _ _ _ _ _ h
        match hq : nodeAt root p with
        | some (DomNode.text value) =>
          have hl : (seekStep root forward p lastNode ro s).2.1 = p := by
            simp [seekStep, hq]
          simp only [List.singleton_append, List.getLastD_cons]
          exact hrec.trans (congrArg (List.getLastD _) hl)
        | some (DomNode.element t st cs) =>
          have hl : (seekStep root forward p lastNode ro s).2.1 = p := by
            simp [seekStep, hq]
          simp only [List.singleton_append, List.getLastD_cons]
          exact hrec.trans (congrArg (List.getLastD _) hl)
        | none =>
          have hl : (seekStep root forward p lastNode ro s).2.1 = lastNode := by
            simp [seekStep, hq]
          simp only [List.nil_append]
          exact hrec.trans (congrArg (List.getLastD _) hl)
/-- After a `seek` from a valid position, the cursor's node is the last node of
the visit trace (or the starting node when nothing was visited). -/
theorem seek_node_lastVisited (root : DomNode) (s : DOMTextScanner) (length : Int)
    (hvalid : (nodeAt root s.node).isSome) :
    (seek root s length).node = (seekVisited root s length).getLastD s.node := by
  by_cases h0 : length = 0
  · subst h0
    simp [seek, seekVisited]
  · simp only [seek, seekVisited, h0, if_false]
    match hout : seekLoop root (decide (0 ≤ length)) (nodeCount root + 1)
        (some ({ s with remainder := length.natAbs } : DOMTextScanner).node)
        ({ s with remainder := length.natAbs } : DOMTextScanner).node
        ({ s with remainder := length.natAbs } : DOMTextScanner).resetOffset
        { s with remainder := length.natAbs } with
    | some out =>
      obtain ⟨s2, last2, ro2⟩ := out
      have hlv := seekLoop_lastNode_visited root (decide (0 ≤ length)) (nodeCount root + 1)
        (some ({ s with remainder := length.natAbs } : DOMTextScanner).node)
        ({ s with remainder := length.natAbs } : DOMTextScanner).node
        ({ s with remainder := length.natAbs } : DOMTextScanner).resetOffset
        { s with remainder := length.natAbs } (s2, last2, ro2) hout
      simpa using hlv
    | none =>
      exfalso
      have h2 := seekLoop_fuel_sufficient root (decide (0 ≤ length))
        ({ s with remainder := length.natAbs } : DOMTextScanner).node
        ({ s with remainder := length.natAbs } : DOMTextScanner).node
        ({ s with remainder := length.natAbs } : DOMTextScanner).resetOffset
        { s with remainder := length.natAbs } hvalid
      rw [hout] at h2
      simp at h2
/-- Unfolding of `seek` for a nonzero length, with the start-state projections
normalised. -/
theorem seek_unfold (root : DomNode) (s : DOMTextScanner) (length : Int) (h0 : length ≠ 0) :
    seek root s length =
      match seekLoop root (decide (0 ≤ length)) (nodeCount root + 1) (some s.node) s.node
          s.resetOffset { s with remainder := length.natAbs } with
      | some (s2, lastNode, ro) => { s2 with node := lastNode, resetOffset := ro }
      | none => { s with remainder := length.natAbs } := by
  simp only [seek, if_neg h0]

/-- Saturation: when a `seek` stops with remainder still positive, the
document is exhausted — asking for any larger amount in the same direction
reads exactly the same content, ends on the same node, and simply reports a
larger remainder. -/
theorem seek_saturation (root : DomNode) (s : DOMTextScanner) (length length' : Int)
    (hsign : 0 ≤ length ↔ 0 ≤ length') (hle : length.natAbs ≤ length'.natAbs)
    (hrem : 1 ≤ (seek root s length).remainder) :
    seek root s length' =
      { seek root s length with
        remainder := (seek root s length).remainder + (length'.natAbs - length.natAbs) } := by
  have h0 : length ≠ 0 := by
    rintro rfl
    simp [seek] at hrem
  have hna : 1 ≤ length.natAbs := by
    have := Int.natAbs_pos.mpr h0
    omega
  have h0' : length' ≠ 0 := by
    intro h
    rw [h] at hle
    simp only [Int.natAbs_zero, Nat.le_zero] at hle
    omega
  have hfwd : decide (0 ≤ length') = decide (0 ≤ length) := by
    rw [decide_eq_decide]
    exact hsign.symm
  obtain ⟨d, hd⟩ : ∃ d, length'.natAbs = length.natAbs + d :=
    ⟨length'.natAbs - length.natAbs, by omega⟩
  rw [seek_unfold root s length h0] at hrem
  rw [seek_unfold root s length' h0', seek_unfold root s length h0, hfwd]
  simp only [hd, Nat.add_sub_cancel_left]
  have hstate : ({ s with remainder := length.natAbs + d } : DOMTextScanner)
      = { ({ s with remainder := length.natAbs } : DOMTextScanner) with
          remainder := ({ s with remainder := length.natAbs } : DOMTextScanner).remainder + d } :=
    rfl
  rw [hstate]
  match hout : seekLoop root (decide (0 ≤ length)) (nodeCount root + 1) (some s.node) s.node
      s.resetOffset { s with remainder := length.natAbs } with
  | some out =>
    obtain ⟨s2, last2, ro2⟩ := out
    rw [hout] at hrem
    have hrem2 : 1 ≤ s2.remainder := by simpa using hrem
    have hall : ∀ out', seekLoop root (decide (0 ≤ length)) (nodeCount root + 1) (some s.node)
        s.node s.resetOffset { s with remainder := length.natAbs } = some out' →
        1 ≤ out'.1.remainder := by
      intro out' hout'
      rw [hout] at hout'
      injection hout' with h
      subst h
      exact hrem2
    have hb := seekLoop_bump root (decide (0 ≤ length)) (nodeCount root + 1) (some s.node)
      s.node s.resetOffset { s with remainder := length.natAbs } d hall
    rw [hout] at hb
    simp only [Option.map_some'] at hb
    rw [hb]
  | none =>
    have hall : ∀ out', seekLoop root (decide (0 ≤ length)) (nodeCount root + 1) (some s.node)
        s.node s.resetOffset { s with remainder := length.natAbs } = some out' →
        1 ≤ out'.1.remainder := by
      intro out' hout'
      rw [hout] at hout'
      simp at hout'
    have hb := seekLoop_bump root (decide (0 ≤ length)) (nodeCount root + 1) (some s.node)
      s.node s.resetOffset { s with remainder := length.natAbs } d hall
    rw [hout] at hb
    simp only [Option.map_none'] at hb
    rw [hb]
/-- C1: after every `seek(length)` call the remainder is the non-negative
shortfall: emitted content length plus remainder equals the old content length
plus `|length|` (so remainder = `|length|` minus the characters emitted by the
call), and remainder is 0 iff the requested length was fully satisfied.  When
the document is exhausted before satisfaction (`remainder ≥ 1`), the cursor's
node is the last visited node of the traversal, and `content` holds all
visible text up to the end: requesting any larger amount in the same direction
emits nothing further, returning the identical state except for a remainder
that exceeds it by exactly the extra request — the exact shortfall. -/
theorem seek_remainder_accounting (root : DomNode) (s : DOMTextScanner) (length : Int) :
    ((seek root s length).content.length + (seek root s length).remainder
      = s.content.length + length.natAbs) ∧
    s.content.length ≤ (seek root s length).content.length ∧
    ((seek root s length).remainder = 0 ↔
      (seek root s length).content.length = s.content.length + length.natAbs) ∧
    ((nodeAt root s.node).isSome →
      (seek root s length).node = (seekVisited root s length).getLastD s.node) ∧
    (∀ length' : Int, (0 ≤ length ↔ 0 ≤ length') → length.natAbs ≤ length'.natAbs →
      1 ≤ (seek root s length).remainder →
      seek root s length' =
        { seek root s length with
          remainder := (seek root s length).remainder + (length'.natAbs - length.natAbs) }) :=
  ⟨(seek_accounting_core root s length).1, (seek_accounting_core root s length).2.1,
    (seek_accounting_core root s length).2.2, seek_node_lastVisited root s length,
    fun length' h1 h2 h3 => seek_saturation root s length length' h1 h2 h3⟩

/-- C1 witness: on the single text `"a   b"`, `seek(5)` exhausts the document
with remainder 2; the final node is the last visited node, and `seek(7)` from
the same start returns the identical state with remainder larger by 2. -/
theorem seek_remainder_accounting_witness :
    (seek docCollapse (mkDOMTextScanner docCollapse [] 0 false true) 5).node =
      (seekVisited docCollapse (mkDOMTextScanner docCollapse [] 0 false true) 5).getLastD
        (mkDOMTextScanner docCollapse [] 0 false true).node ∧
    seek docCollapse (mkDOMTextScanner docCollapse [] 0 false true) 7 =
      { seek docCollapse (mkDOMTextScanner docCollapse [] 0 false true) 5 with
        remainder :=
          (seek docCollapse (mkDOMTextScanner docCollapse [] 0 false true) 5).remainder
            + ((7 : Int).natAbs - (5 : Int).natAbs) } :=
  ⟨(seek_remainder_accounting docCollapse (mkDOMTextScanner docCollapse [] 0 false true)
      5).2.2.2.1 (by decide),
   (seek_remainder_accounting docCollapse (mkDOMTextScanner docCollapse [] 0 false true)
      5).2.2.2.2 7 (by decide) (by decide) (by decide)⟩
